import Mathlib

/-!
# filter_pLDDT: the per-file line filter of `filter_plddt.cpp`

A shallow embedding of the body of the file loop in `main`
(`src/filter_plddt.cpp`, lines 101-132) together with the C library
function `atof` that `fast_bfactor` calls, and of the dispatch loop over the
enumerated files (lines 77-148), followed by the theorems that settle the
claims of the specification about them.

Buffers are lists of bytes.  `std::string::c_str()` is the buffer followed
by a NUL byte, so the C string that starts at an offset is the run of
bytes from that offset up to the first NUL byte or the end of the buffer.
-/

namespace FilterPlddt

/-- One byte of a file buffer (`char`). -/
abbrev Byte := UInt8

/-- The line terminator `'\n'`. -/
def LF : Byte := 10

/-! ## Double precision values -/

/-- The values of a C `double` that matter to the comparison `b >= cutoff`:
NaN, the two infinities, and the finite values `m * 2 ^ e`.  (The two signed
zeros compare equal and are both `fin 0 0`.) -/
inductive Double where
  | nan : Double
  | ninf : Double
  | fin (m : Int) (e : Int) : Double
  | pinf : Double
  deriving DecidableEq

namespace Double

/-- The numerator of `m * 2 ^ e` over the common denominator `2 ^ (-e0)`, for `e0 ≤ e`. -/
def scaled (m e e0 : Int) : Int := m * Int.ofNat (2 ^ (e - e0).toNat)

/-- Order of two finite values: `m1 * 2 ^ e1 ≤ m2 * 2 ^ e2`. -/
def finLe (m1 e1 m2 e2 : Int) : Bool :=
  decide (scaled m1 e1 (min e1 e2) ≤ scaled m2 e2 (min e1 e2))

/-- Strict order of two finite values: `m1 * 2 ^ e1 < m2 * 2 ^ e2`. -/
def finLt (m1 e1 m2 e2 : Int) : Bool :=
  decide (scaled m1 e1 (min e1 e2) < scaled m2 e2 (min e1 e2))

/-- The C comparison `a >= b` on doubles: false as soon as one side is NaN. -/
def ge : Double → Double → Bool
  | nan, _ => false
  | _, nan => false
  | pinf, _ => true
  | _, ninf => true
  | ninf, _ => false
  | _, pinf => false
  | fin m1 e1, fin m2 e2 => finLe m2 e2 m1 e1

/-- The C comparison `a < b` on doubles: false as soon as one side is NaN. -/
def lt : Double → Double → Bool
  | nan, _ => false
  | _, nan => false
  | pinf, _ => false
  | _, ninf => false
  | ninf, _ => true
  | _, pinf => true
  | fin m1 e1, fin m2 e2 => finLt m1 e1 m2 e2

/-- Whether the value is NaN. -/
def isNaN : Double → Bool
  | nan => true
  | _ => false

/-- Floor of the base-2 logarithm (0 for 0), by halving; `fuel ≥ n` suffices. -/
def log2Fuel : Nat → Nat → Nat
  | 0, _ => 0
  | fuel + 1, n => if n < 2 then 0 else log2Fuel fuel (n / 2) + 1

/-- The integer nearest to `n / d`, ties going to the even one. -/
def roundHalfEven (n d : Nat) : Nat :=
  let q := n / d
  let r := n % d
  if 2 * r < d then q
  else if d < 2 * r then q + 1
  else if q % 2 = 0 then q else q + 1

/-- Floor of the base-2 logarithm of the positive ratio `n / d`. -/
def ratioLog2 (n d : Nat) : Int :=
  let l : Int := Int.ofNat (log2Fuel n n) - Int.ofNat (log2Fuel d d)
  let reaches : Bool :=
    if 0 ≤ l then decide (d * 2 ^ l.toNat ≤ n) else decide (d ≤ n * 2 ^ (-l).toNat)
  if reaches then l else l - 1

/-- Round the ratio `n / d` (with `d > 0`), negated when `neg`, to the nearest
binary64 value, ties to even: 53 significant bits, least exponent `-1074`,
overflow to infinity at `2 ^ 1024`. -/
def ofRatio (neg : Bool) (n d : Nat) : Double :=
  if n = 0 then fin 0 0
  else
    let e : Int := max (ratioLog2 n d - 52) (-1074)
    let m : Nat :=
      if 0 ≤ e then roundHalfEven n (d * 2 ^ e.toNat)
      else roundHalfEven (n * 2 ^ (-e).toNat) d
    if 971 < e ∨ (e = 971 ∧ 2 ^ 53 ≤ m) then (if neg then ninf else pinf)
    else fin (if neg then Int.negOfNat m else Int.ofNat m) e

/-- Round `n * base ^ x`, negated when `neg`, to the nearest binary64 value. -/
def ofScaled (neg : Bool) (n base : Nat) (x : Int) : Double :=
  if 0 ≤ x then ofRatio neg (n * base ^ x.toNat) 1
  else ofRatio neg n (base ^ (-x).toNat)

end Double

/-! ## The C library function `atof` (`strtod` in the "C" locale) -/

/-- The predicate `isspace` in the "C" locale: space, `\t`, `\n`, `\v`, `\f`, `\r`. -/
def isSpace (c : Byte) : Bool := c = 32 || (9 ≤ c && c ≤ 13)

/-- Value of a decimal digit, if the byte is one. -/
def decDigit (c : Byte) : Option Nat :=
  if 48 ≤ c && c ≤ 57 then some (c.toNat - 48) else none

/-- Value of a hexadecimal digit, if the byte is one. -/
def hexDigit (c : Byte) : Option Nat :=
  if 48 ≤ c && c ≤ 57 then some (c.toNat - 48)
  else if 97 ≤ c && c ≤ 102 then some (c.toNat - 87)
  else if 65 ≤ c && c ≤ 70 then some (c.toNat - 55)
  else none

/-- ASCII lower-casing of one byte. -/
def lower (c : Byte) : Byte := if 65 ≤ c && c ≤ 90 then c + 32 else c

/-- Drop the leading white space. -/
def skipSpaces : List Byte → List Byte
  | [] => []
  | c :: cs => if isSpace c then skipSpaces cs else c :: cs

/-- Read the longest run of digits in the given base, continuing the number
`acc`: the number read, how many digits were read, and the bytes that follow. -/
def readDigits (digit : Byte → Option Nat) (base : Nat) :
    List Byte → Nat → Nat → Nat × Nat × List Byte
  | [], acc, cnt => (acc, cnt, [])
  | c :: cs, acc, cnt =>
    match digit c with
    | some d => readDigits digit base cs (acc * base + d) (cnt + 1)
    | none => (acc, cnt, c :: cs)

/-- An optional exponent part: the marker byte (either case), an optional
sign and at least one decimal digit.  Without a digit there is no exponent
part and the exponent is 0. -/
def readExponent (marker : Byte) : List Byte → Int
  | [] => 0
  | c :: cs =>
    if lower c = marker then
      let (neg, ds) :=
        match cs with
        | 43 :: r => (false, r)
        | 45 :: r => (true, r)
        | r => (false, r)
      let (x, cnt, _) := readDigits decDigit 10 ds 0 0
      if cnt = 0 then 0 else if neg then Int.negOfNat x else Int.ofNat x
    else 0

/-- A digit sequence with an optional radix point: the digits read as one
number, the count of digits, the count of digits after the point, and the
bytes that follow. -/
def readMantissa (digit : Byte → Option Nat) (base : Nat) (s : List Byte) :
    Nat × Nat × Nat × List Byte :=
  let (ip, n1, r1) := readDigits digit base s 0 0
  match r1 with
  | 46 :: r =>
    let (m, n2, r2) := readDigits digit base r ip 0
    (m, n1 + n2, n2, r2)
  | _ => (ip, n1, 0, r1)

/-- The decimal form: digits with an optional point, then an optional `e`
exponent.  Without any digit nothing is converted and the result is 0. -/
def parseDecimal (neg : Bool) (s : List Byte) : Double :=
  let (m, n, frac, rest) := readMantissa decDigit 10 s
  if n = 0 then Double.fin 0 0
  else Double.ofScaled neg m 10 (readExponent 101 rest - Int.ofNat frac)

/-- The hexadecimal form, after the `0x`: hexadecimal digits with an optional
point, then an optional `p` binary exponent.  Without any digit only the
leading `0` is converted. -/
def parseHex (neg : Bool) (s : List Byte) : Double :=
  let (m, n, frac, rest) := readMantissa hexDigit 16 s
  if n = 0 then Double.fin 0 0
  else Double.ofScaled neg m 2 (readExponent 112 rest - 4 * Int.ofNat frac)

/-- The number after the white space and the sign: `inf`/`infinity`, `nan`
(either case), a hexadecimal form or a decimal form. -/
def parseNumber (neg : Bool) (s : List Byte) : Double :=
  match s.map lower with
  | 105 :: 110 :: 102 :: _ => if neg then Double.ninf else Double.pinf
  | 110 :: 97 :: 110 :: _ => Double.nan
  | 48 :: 120 :: _ => parseHex neg (s.drop 2)
  | _ => parseDecimal neg s

/-- The C library's `atof` on a C string, which is `strtod` without the end
pointer: skip white space, read an optional sign, convert the longest initial
numeral, rounded to the nearest double, and ignore what follows it; 0 when
there is no numeral. -/
def atof (s : List Byte) : Double :=
  match skipSpaces s with
  | 43 :: r => parseNumber false r
  | 45 :: r => parseNumber true r
  | r => parseNumber false r

/-! ## The per-file filter (`main`, lines 101-132) -/

/-- Scan for the byte `c`, counting the index up from `i`. -/
def findFrom (c : Byte) : List Byte → Nat → Option Nat
  | [], _ => none
  | b :: bs, i => if b = c then some i else findFrom c bs (i + 1)

/-- The call `buffer.find(c, pos)`: the least index at or after `pos` that
holds the byte `c`; `none` stands for `std::string::npos`. -/
def find (buffer : List Byte) (c : Byte) (pos : Nat) : Option Nat :=
  findFrom c (buffer.drop pos) pos

/-- The C string at `buffer.c_str() + off`: the bytes from `off` up to the
first NUL byte, the terminator that follows the buffer included. -/
def cstr (buffer : List Byte) (off : Nat) : List Byte :=
  (buffer.drop off).takeWhile (fun b => b != 0)

/-- The function `fast_bfactor(line)` for `line = data + pos`: `atof(line + 60)`. -/
def fast_bfactor (buffer : List Byte) (pos : Nat) : Double :=
  atof (cstr buffer (pos + 60))

/-- The byte `line[i]` for `line = data + pos`, when the index is inside the buffer. -/
def lineByte (buffer : List Byte) (pos i : Nat) : Option Byte :=
  buffer.get? (pos + i)

/-- The condition of the `if` of lines 115-117: the line is longer than 66
bytes and its bytes 0 to 3 are `ATOM` or `HETA`. -/
def isAtomRecord (buffer : List Byte) (pos line_len : Nat) : Bool :=
  decide (line_len > 66) &&
    ((lineByte buffer pos 0 == some 65 && lineByte buffer pos 1 == some 84 &&
        lineByte buffer pos 2 == some 79 && lineByte buffer pos 3 == some 77) ||
     (lineByte buffer pos 0 == some 72 && lineByte buffer pos 1 == some 69 &&
        lineByte buffer pos 2 == some 84 && lineByte buffer pos 3 == some 65))

/-- The variables that the `while` loop updates. -/
structure LoopState where
  /-- The cursor `pos`. -/
  pos : Nat
  /-- The string `output`. -/
  output : List Byte
  deriving DecidableEq

/-- The bytes of `output` after `output.append(line, line_len)` and
`output.push_back('\n')`. -/
def appendLine (buffer : List Byte) (pos line_len : Nat) (output : List Byte) : List Byte :=
  output ++ (buffer.drop pos).take line_len ++ [LF]

/-- One iteration of the `while` loop (lines 109-131). -/
def loopBody (buffer : List Byte) (cutoff : Double) (st : LoopState) : LoopState :=
  let size := buffer.length
  let line_end := (find buffer LF st.pos).getD size
  let line_len := line_end - st.pos
  if isAtomRecord buffer st.pos line_len then
    let b := fast_bfactor buffer st.pos
    if Double.ge b cutoff then
      { pos := line_end + 1, output := appendLine buffer st.pos line_len st.output }
    else
      { pos := line_end + 1, output := st.output }
  else
    { pos := line_end + 1, output := appendLine buffer st.pos line_len st.output }

/-- The loop `while (pos < size)` run for at most `fuel` iterations: the final
`output`, or `none` when the iterations do not suffice. -/
def filterLoop (buffer : List Byte) (cutoff : Double) : Nat → LoopState → Option (List Byte)
  | 0, st => if st.pos < buffer.length then none else some st.output
  | fuel + 1, st =>
    if st.pos < buffer.length then filterLoop buffer cutoff fuel (loopBody buffer cutoff st)
    else some st.output

/-- The bytes written to the output file for one input buffer: the loop
started at `pos = 0` with an empty `output`.  Every iteration moves the cursor
forward, so `size` iterations are enough. -/
def filterFile (buffer : List Byte) (cutoff : Double) : Option (List Byte) :=
  filterLoop buffer cutoff buffer.length { pos := 0, output := [] }

/-! ## Lines of a buffer -/

/-- The lines of a buffer, each paired with the bytes of the buffer from the
start of that line on: a line ends before the next LF or at the end of the
buffer, and no line starts at the end of the buffer. -/
def segments : List Byte → List (List Byte × List Byte)
  | [] => []
  | b :: bs =>
    if b = LF then ([], b :: bs) :: segments bs
    else
      match segments bs with
      | [] => [([b], b :: bs)]
      | (l, _) :: rest => (b :: l, b :: bs) :: rest

/-- The lines of a buffer. -/
def lines (buffer : List Byte) : List (List Byte) :=
  (segments buffer).map Prod.fst

/-- Each line followed by one LF, concatenated. -/
def emit : List (List Byte) → List Byte
  | [] => []
  | l :: ls => l ++ LF :: emit ls

/-- Whether the loop classifies the line of a segment as an atomic record. -/
def filterable (seg : List Byte × List Byte) : Bool :=
  isAtomRecord seg.2 0 seg.1.length

/-- The B-factor that the loop extracts for the line of a segment. -/
def bfactor (seg : List Byte × List Byte) : Double :=
  fast_bfactor seg.2 0

/-- The decision of lines 115-129 for one line: appended unless it is an
atomic record whose B-factor fails `b >= cutoff`. -/
def retained (cutoff : Double) (seg : List Byte × List Byte) : Bool :=
  !filterable seg || Double.ge (bfactor seg) cutoff

/-- The lines that the decision keeps, in input order. -/
def keptLines (buffer : List Byte) (cutoff : Double) : List (List Byte) :=
  ((segments buffer).filter (retained cutoff)).map Prod.fst

/-- The bytes of an ASCII string. -/
def bytes (s : String) : List Byte := s.toList.map (fun c => c.toNat.toUInt8)

/-! ## Auxiliary notions for the proofs -/

/-- The first line of a byte sequence: its bytes before the first LF. -/
def lineOf (s : List Byte) : List Byte := s.takeWhile (fun b => b != LF)

/-- The line end that the loop computes from the cursor `pos`. -/
def lineEnd (buffer : List Byte) (pos : Nat) : Nat :=
  (find buffer LF pos).getD buffer.length

/-- The classification of a line from its own bytes. -/
def isAtomLine (l : List Byte) : Bool := isAtomRecord l 0 l.length

/-- The buffer with a final LF added when it is not empty and lacks one. -/
def withFinalLF (buffer : List Byte) : List Byte :=
  if buffer = [] ∨ buffer.getLast? = some LF then buffer else buffer ++ [LF]

/-! ## The suppression rule in the words of the specification -/

/-- The specification's rule: a line is suppressed iff it is classified
ATOM/HETATM and its extracted B-factor is strictly less than the cutoff. -/
def suppressedAsStated (cutoff : Double) (seg : List Byte × List Byte) : Bool :=
  filterable seg && Double.lt (bfactor seg) cutoff

/-- The lines that the specification's rule retains, in input order. -/
def linesAsStated (buffer : List Byte) (cutoff : Double) : List (List Byte) :=
  ((segments buffer).filter (fun seg => !suppressedAsStated cutoff seg)).map Prod.fst

/-! ## Sample inputs -/

/-- An ATOM record whose columns 1-60 are fixed and whose columns from 61 on
are the given text. -/
def atomRecord (columns61 : String) : List Byte :=
  bytes ("ATOM      1  N   ALA A   1       0.000   0.000   0.000  1.00" ++ columns61)

/-- The cutoff that `main` computes from the argument `50`. -/
def cutoff50 : Double := atof (bytes "50")

/-- The cutoff that `main` computes from the argument `0`. -/
def cutoff0 : Double := atof (bytes "0")

/-- An ATOM record of 67 bytes whose columns 61-67 are blank. -/
def blankRecord : List Byte := atomRecord "       "

/-- Three lines: a record with a blank B-factor field, a record with the
B-factor -5.00, and the line `-1`. -/
def threeLines : List Byte :=
  blankRecord ++ [LF] ++ atomRecord " -5.00           N" ++ [LF] ++ bytes "-1" ++ [LF]

/-- The scenario S5 without its final LF: HEADER, ATOM with B-factor 80, ATOM
with B-factor 20, END. -/
def mixedFile : List Byte :=
  bytes "HEADER    TEST" ++ [LF] ++ atomRecord " 80.00           N" ++ [LF] ++
    atomRecord " 20.00           N" ++ [LF] ++ bytes "END"

/-! ## Order of cutoffs -/

/-- The C comparison `a <= b` on doubles, which is `b >= a`: false as soon as
one side is NaN. -/
def Double.le (a b : Double) : Bool := Double.ge b a

/-! ## The loop instrumented: iterations and byte accesses -/

/-- The number of iterations that the loop `while (pos < size)` performs from
a state, run for at most `fuel` iterations; `none` when they do not suffice. -/
def loopIterations (buffer : List Byte) (cutoff : Double) : Nat → LoopState → Option Nat
  | 0, st => if st.pos < buffer.length then none else some 0
  | fuel + 1, st =>
    if st.pos < buffer.length then
      (loopIterations buffer cutoff fuel (loopBody buffer cutoff st)).map (fun n => n + 1)
    else some 0

/-- Short-circuit evaluation of a chain `line[i] == c && ...`: its value and
the offsets `i` of the accesses `line[i]` that it performs, in order. -/
def evalChain (buffer : List Byte) (pos : Nat) : List (Nat × Byte) → Bool × List Nat
  | [] => (true, [])
  | (i, c) :: rest =>
    if lineByte buffer pos i == some c then
      ((evalChain buffer pos rest).1, i :: (evalChain buffer pos rest).2)
    else (false, [i])

/-- Short-circuit evaluation of the condition of lines 115-117: its value and
the offsets of the accesses `line[i]` that it performs. Nothing is read when
`line_len > 66` fails, and the `HETA` chain is read only when the `ATOM` chain
fails. -/
def evalCondition (buffer : List Byte) (pos line_len : Nat) : Bool × List Nat :=
  if line_len > 66 then
    if (evalChain buffer pos [(0, 65), (1, 84), (2, 79), (3, 77)]).1 then
      (true, (evalChain buffer pos [(0, 65), (1, 84), (2, 79), (3, 77)]).2)
    else
      ((evalChain buffer pos [(0, 72), (1, 69), (2, 84), (3, 65)]).1,
        (evalChain buffer pos [(0, 65), (1, 84), (2, 79), (3, 77)]).2 ++
          (evalChain buffer pos [(0, 72), (1, 69), (2, 84), (3, 65)]).2)
  else (false, [])

/-! ## The dispatch loop (`main`, lines 77-148)

The source runs the iterations of the `for` loop in parallel. The only state
they share is the atomic counter `progress`, the standard streams and the
output directory, and each of them is touched at most once by an iteration, so
the model runs the iterations one after the other, in the order of the list;
a run in another order is the model on the reordered list. The counter is a
`size_t`; it is never greater than the number of files, so it does not wrap. -/

/-- What lines 89-99 give for an entry of `pdb_files`. -/
inductive ReadResult where
  /-- The stream fails to open: `!fin` holds and the iteration ends at `continue`. -/
  | openFailed : ReadResult
  /-- The stream opens but `buffer.resize(size)` throws: `tellg()` gave -1, as it
  does for a directory whose name ends in `.pdb`, or the size cannot be allocated.
  Nothing catches the exception. -/
  | resizeThrows : ReadResult
  /-- The stream opens and `buffer` holds these bytes after `fin.read`. -/
  | read (buffer : List Byte) : ReadResult
  deriving DecidableEq

/-- An entry of `pdb_files` together with what the file system answers for it. -/
structure InputFile where
  /-- The final component of the path, `infile.filename()`. -/
  name : String
  /-- What opening and reading the file gives. -/
  input : ReadResult
  /-- What the output stream of lines 134-136 takes: `none` when `fout` fails to
  open, so that no file is written, and `some n` when it opens and takes up to
  `n` bytes. The source does not test `fout`. -/
  outputRoom : Option Nat
  deriving DecidableEq

/-- The counter and the effects of the dispatch loop. -/
structure DispatchState where
  /-- The atomic counter `progress`. -/
  progress : Nat
  /-- The writes of output files, in order: file name in `output_dir` and the
  bytes that the file holds after the write. A later write under the same name
  replaces the file. -/
  written : List (String × List Byte)
  /-- The lines `Processed done/total` printed to `std::cout`: `done` and `total`. -/
  stdout : List (Nat × Nat)
  /-- The lines that the loop prints to `std::cerr`. -/
  stderr : List String
  /-- Whether an exception has left an iteration, which terminates the process:
  no later iteration runs. -/
  terminated : Bool
  deriving DecidableEq

/-- The constant `report_interval`. -/
def report_interval : Nat := 100

/-- The effect of lines 134-136 on the output files: nothing when `fout` fails
to open, else a file named after the input that holds the bytes the stream
takes. -/
def writeOutput (file : InputFile) (output : List Byte)
    (written : List (String × List Byte)) : List (String × List Byte) :=
  match file.outputRoom with
  | none => written
  | some room => written ++ [(file.name, output.take room)]

/-- One iteration of the `for` loop (lines 86-147) on one file: `continue`
when the file does not open; the process terminates when `buffer.resize`
throws; else filter the buffer, write the output file, increment `progress`
and print a progress line at every multiple of `report_interval`. Nothing runs
once the process is terminated. The result is `none` when the filter loop does
not return. -/
def dispatchBody (cutoff : Double) (total : Nat) (file : InputFile) (st : DispatchState) :
    Option DispatchState :=
  if st.terminated then some st
  else
    match file.input with
    | ReadResult.openFailed => some st
    | ReadResult.resizeThrows =>
      some
        { progress := st.progress, written := st.written, stdout := st.stdout,
          stderr := st.stderr, terminated := true }
    | ReadResult.read buffer =>
      match filterFile buffer cutoff with
      | none => none
      | some output =>
        some
          { progress := st.progress + 1,
            written := writeOutput file output st.written,
            stdout :=
              if (st.progress + 1) % report_interval = 0 then
                st.stdout ++ [(st.progress + 1, total)]
              else st.stdout,
            stderr := st.stderr,
            terminated := false }

/-- The iterations of the `for` loop over the files, one after the other. -/
def dispatchLoop (cutoff : Double) (total : Nat) :
    List InputFile → DispatchState → Option DispatchState
  | [], st => some st
  | file :: files, st =>
    match dispatchBody cutoff total file st with
    | none => none
    | some st1 => dispatchLoop cutoff total files st1

/-- The dispatch loop of `main` over the enumerated files: `total` is their
number, the counter starts at 0 and nothing has been written or printed. -/
def dispatch (cutoff : Double) (pdb_files : List InputFile) : Option DispatchState :=
  dispatchLoop cutoff pdb_files.length pdb_files
    { progress := 0, written := [], stdout := [], stderr := [], terminated := false }

/-- Whether the stream of an entry opens. -/
def InputFile.opens (file : InputFile) : Bool :=
  match file.input with
  | ReadResult.openFailed => false
  | _ => true

/-- The number of files of the list that open. -/
def openCount (files : List InputFile) : Nat :=
  (files.filter (fun file => file.opens)).length

/-- The writes expected for a list of files: one for every file that is read
and whose output stream opens, named after it and holding the filtered bytes
that the stream takes, in order. -/
def expectedOutputs (cutoff : Double) (files : List InputFile) : List (String × List Byte) :=
  files.filterMap (fun file =>
    match file.input, file.outputRoom with
    | ReadResult.read buffer, some room =>
      some (file.name, (emit (keptLines buffer cutoff)).take room)
    | _, _ => none)

/-- Two enumerated files: `a.pdb` does not open, `b.pdb` holds the line `END`
and its output file takes all the bytes. -/
def twoFiles : List InputFile :=
  [{ name := "a.pdb", input := ReadResult.openFailed, outputRoom := some 1000 },
    { name := "b.pdb", input := ReadResult.read (bytes "END" ++ [LF]), outputRoom := some 1000 }]

/-- One enumerated file, which does not open. -/
def oneMissing : List InputFile :=
  [{ name := "missing.pdb", input := ReadResult.openFailed, outputRoom := some 1000 }]

/-- Three enumerated entries: `a.pdb` holds the line `END`, `d.pdb` is a
directory, `b.pdb` holds the line `END`; the output files take all the bytes. -/
def withDirectory : List InputFile :=
  [{ name := "a.pdb", input := ReadResult.read (bytes "END" ++ [LF]), outputRoom := some 1000 },
    { name := "d.pdb", input := ReadResult.resizeThrows, outputRoom := some 1000 },
    { name := "b.pdb", input := ReadResult.read (bytes "END" ++ [LF]), outputRoom := some 1000 }]

/-- Two enumerated files that hold the line `END`: the output stream of `a.pdb`
does not open, that of `b.pdb` takes two bytes only. -/
def badOutputs : List InputFile :=
  [{ name := "a.pdb", input := ReadResult.read (bytes "END" ++ [LF]), outputRoom := none },
    { name := "b.pdb", input := ReadResult.read (bytes "END" ++ [LF]), outputRoom := some 2 }]

/-! ## The numeral grammar in the words of the specification -/

/-- The decimal numeral of the specification after white space and sign: an
integer part and an optional fractional part with `.`, read up to the first
byte that is not part of it and rounded to the nearest double; 0 when no
digits are found. -/
def decimalAsStated (neg : Bool) (s : List Byte) : Double :=
  let (m, n, frac, _) := readMantissa decDigit 10 s
  if n = 0 then Double.fin 0 0 else Double.ofScaled neg m 10 (-Int.ofNat frac)

/-- The value that the specification states for the bytes of a field:
optional leading white space, an optional sign, then the decimal numeral. -/
def parseAsStated (s : List Byte) : Double :=
  match skipSpaces s with
  | 43 :: r => decimalAsStated false r
  | 45 :: r => decimalAsStated true r
  | r => decimalAsStated false r

/-- The B-factor of a line as the specification states it: the numeral read
from the bytes of the line from offset 60 on. -/
def bfactorAsStated (seg : List Byte × List Byte) : Double :=
  parseAsStated (seg.1.drop 60)

/-- Whether the bytes after white space and sign are in the plain form that
the specification describes: they do not start with `inf`, `nan` or `0x` (in
either case), and the digits are not followed by `e` or `E`. -/
def plainAfterSign (s : List Byte) : Bool :=
  match s.map lower with
  | 105 :: 110 :: 102 :: _ => false
  | 110 :: 97 :: 110 :: _ => false
  | 48 :: 120 :: _ => false
  | _ =>
    match (readMantissa decDigit 10 s).2.2.2 with
    | c :: _ => lower c != 101
    | [] => true

/-- Whether the bytes of a field, after white space and an optional sign, are
in the plain form that the specification describes. -/
def plainNumeral (s : List Byte) : Bool :=
  match skipSpaces s with
  | 43 :: r => plainAfterSign r
  | 45 :: r => plainAfterSign r
  | r => plainAfterSign r

/-- A byte at which the line or the C string ends: NUL or LF. -/
def isStop (c : Byte) : Bool := c = 0 || c = LF

set_option maxRecDepth 100000

/-! ## The loop computes the retained lines -/

theorem lineOf_nil : lineOf [] = [] := rfl

theorem lineOf_cons_lf (bs : List Byte) : lineOf (LF :: bs) = [] := by
  simp [lineOf]

theorem lineOf_cons_ne {b : Byte} (h : b ≠ LF) (bs : List Byte) :
    lineOf (b :: bs) = b :: lineOf bs := by
  simp [lineOf, h]

theorem lineOf_length_le (s : List Byte) : (lineOf s).length ≤ s.length := by
  induction s with
  | nil => simp [lineOf]
  | cons b bs ih =>
    by_cases h : b = LF
    · subst h; simp [lineOf_cons_lf]
    · simp [lineOf_cons_ne h]; exact ih

theorem lf_not_mem_lineOf (s : List Byte) : LF ∉ lineOf s := by
  induction s with
  | nil => simp [lineOf]
  | cons b bs ih =>
    by_cases h : b = LF
    · subst h; simp [lineOf_cons_lf]
    · simp [lineOf_cons_ne h, ih]; exact fun h' => h h'.symm

theorem lineOf_of_not_mem {s : List Byte} (h : LF ∉ s) : lineOf s = s := by
  induction s with
  | nil => rfl
  | cons b bs ih =>
    have hb : b ≠ LF := fun e => h (by simp [e])
    have hbs : LF ∉ bs := fun e => h (by simp [e])
    rw [lineOf_cons_ne hb, ih hbs]

theorem take_lineOf (s : List Byte) : s.take (lineOf s).length = lineOf s := by
  induction s with
  | nil => rfl
  | cons b bs ih =>
    by_cases h : b = LF
    · subst h; simp [lineOf_cons_lf]
    · simp [lineOf_cons_ne h, ih]

theorem findFrom_of_not_mem {s : List Byte} (h : LF ∉ s) (i : Nat) :
    findFrom LF s i = none := by
  induction s generalizing i with
  | nil => rfl
  | cons b bs ih =>
    have hb : b ≠ LF := fun e => h (by simp [e])
    have hbs : LF ∉ bs := fun e => h (by simp [e])
    simp [findFrom, hb, ih hbs]

theorem findFrom_of_mem {s : List Byte} (h : LF ∈ s) (i : Nat) :
    findFrom LF s i = some (i + (lineOf s).length) := by
  induction s generalizing i with
  | nil => simp at h
  | cons b bs ih =>
    by_cases hb : b = LF
    · subst hb; simp [findFrom, lineOf_cons_lf]
    · have hbs : LF ∈ bs := by
        rcases List.mem_cons.1 h with e | e
        · exact absurd e.symm hb
        · exact e
      simp [findFrom, hb, lineOf_cons_ne hb, ih hbs]
      omega

theorem lineOf_length_lt_of_mem {s : List Byte} (h : LF ∈ s) :
    (lineOf s).length < s.length := by
  induction s with
  | nil => simp at h
  | cons b bs ih =>
    by_cases hb : b = LF
    · subst hb; simp [lineOf_cons_lf]
    · have hbs : LF ∈ bs := by
        rcases List.mem_cons.1 h with e | e
        · exact absurd e.symm hb
        · exact e
      simp [lineOf_cons_ne hb]; exact ih hbs

theorem lineEnd_sub (buffer : List Byte) (pos : Nat) :
    lineEnd buffer pos - pos = (lineOf (buffer.drop pos)).length := by
  unfold lineEnd find
  by_cases hm : LF ∈ buffer.drop pos
  · rw [findFrom_of_mem hm]; simp
  · rw [findFrom_of_not_mem hm, lineOf_of_not_mem hm]; simp

theorem lineEnd_ge (buffer : List Byte) (pos : Nat) (h : pos < buffer.length) :
    pos ≤ lineEnd buffer pos := by
  unfold lineEnd find
  by_cases hm : LF ∈ buffer.drop pos
  · rw [findFrom_of_mem hm]; simp
  · rw [findFrom_of_not_mem hm]; simp; omega

theorem lineEnd_le (buffer : List Byte) (pos : Nat) (h : pos < buffer.length) :
    lineEnd buffer pos ≤ buffer.length := by
  unfold lineEnd find
  by_cases hm : LF ∈ buffer.drop pos
  · rw [findFrom_of_mem hm]
    have := lineOf_length_lt_of_mem hm
    simp at this ⊢; omega
  · rw [findFrom_of_not_mem hm]; simp

theorem drop_lineEnd_succ (buffer : List Byte) (pos : Nat) :
    buffer.drop (lineEnd buffer pos + 1) =
      (buffer.drop pos).drop ((lineOf (buffer.drop pos)).length + 1) := by
  unfold lineEnd find
  by_cases hm : LF ∈ buffer.drop pos
  · rw [findFrom_of_mem hm]; simp [List.drop_drop, Nat.add_assoc]
  · rw [findFrom_of_not_mem hm, lineOf_of_not_mem hm]
    rw [Option.getD_none, List.drop_eq_nil_of_le (by omega),
      List.drop_eq_nil_of_le (by omega)]

theorem segments_cons_eq (b : Byte) (bs : List Byte) :
    segments (b :: bs) =
      (lineOf (b :: bs), b :: bs) ::
        segments ((b :: bs).drop ((lineOf (b :: bs)).length + 1)) := by
  induction bs generalizing b with
  | nil =>
    by_cases hb : b = LF
    · subst hb; simp [segments, lineOf_cons_lf]
    · simp [segments, hb, lineOf_cons_ne hb, lineOf_nil]
  | cons c cs ih =>
    by_cases hb : b = LF
    · subst hb; simp [segments, lineOf_cons_lf]
    · rw [segments, if_neg hb, ih c, lineOf_cons_ne hb]
      simp

theorem segments_eq {s : List Byte} (h : s ≠ []) :
    segments s = (lineOf s, s) :: segments (s.drop ((lineOf s).length + 1)) := by
  cases s with
  | nil => exact absurd rfl h
  | cons b bs => exact segments_cons_eq b bs

theorem isAtomRecord_drop (buffer : List Byte) (pos n : Nat) :
    isAtomRecord buffer pos n = isAtomRecord (buffer.drop pos) 0 n := by
  simp [isAtomRecord, lineByte, List.getElem?_drop]

theorem fast_bfactor_drop (buffer : List Byte) (pos : Nat) :
    fast_bfactor buffer pos = fast_bfactor (buffer.drop pos) 0 := by
  simp [fast_bfactor, cstr, List.drop_drop, Nat.add_comm]

/-- One iteration appends the line at the cursor exactly when `retained` says
so, and moves the cursor to the start of the next line. -/
theorem loopBody_eq (buffer : List Byte) (cutoff : Double) (st : LoopState) :
    loopBody buffer cutoff st =
      { pos := lineEnd buffer st.pos + 1,
        output :=
          if retained cutoff (lineOf (buffer.drop st.pos), buffer.drop st.pos) then
            st.output ++ lineOf (buffer.drop st.pos) ++ [LF]
          else st.output } := by
  have hlen := lineEnd_sub buffer st.pos
  unfold loopBody appendLine
  simp only [← lineEnd.eq_1, hlen, take_lineOf]
  rw [isAtomRecord_drop, fast_bfactor_drop]
  simp only [retained, filterable, bfactor]
  by_cases h1 : isAtomRecord (buffer.drop st.pos) 0 (lineOf (buffer.drop st.pos)).length = true
  · by_cases h2 : Double.ge (fast_bfactor (buffer.drop st.pos) 0) cutoff = true
    · simp [h1, h2]
    · simp [h1, h2]
  · simp [h1]

theorem emit_append (xs ys : List (List Byte)) : emit (xs ++ ys) = emit xs ++ emit ys := by
  induction xs with
  | nil => rfl
  | cons x xs ih => simp [emit, ih]

/-- The loop, given enough iterations, returns the output so far followed by
the retained lines of the rest of the buffer. -/
theorem filterLoop_eq (buffer : List Byte) (cutoff : Double) :
    ∀ (fuel : Nat) (st : LoopState), buffer.length - st.pos ≤ fuel →
      filterLoop buffer cutoff fuel st =
        some (st.output ++ emit (keptLines (buffer.drop st.pos) cutoff)) := by
  intro fuel
  induction fuel with
  | zero =>
    intro st hf
    have hge : ¬ st.pos < buffer.length := by omega
    have hnil : buffer.drop st.pos = [] := List.drop_eq_nil_of_le (by omega)
    simp [filterLoop, hge, hnil, keptLines, segments, emit]
  | succ fuel ih =>
    intro st hf
    by_cases hlt : st.pos < buffer.length
    · have hne : buffer.drop st.pos ≠ [] := by
        intro e
        have := congrArg List.length e
        simp at this; omega
      have hge := lineEnd_ge buffer st.pos hlt
      rw [filterLoop, if_pos hlt, loopBody_eq buffer cutoff st, ih _ (by simp; omega)]
      simp only [drop_lineEnd_succ buffer st.pos]
      simp only [keptLines]
      rw [segments_eq hne]
      by_cases hr : retained cutoff (lineOf (buffer.drop st.pos), buffer.drop st.pos) = true
      · simp [hr, keptLines, emit]
      · simp [hr, keptLines]
    · have hnil : buffer.drop st.pos = [] := List.drop_eq_nil_of_le (by omega)
      simp [filterLoop, hlt, hnil, keptLines, segments, emit]

/-- The per-file filter always returns, and its output is the retained lines
of the buffer, in input order, each followed by one LF. -/
theorem filterFile_eq (buffer : List Byte) (cutoff : Double) :
    filterFile buffer cutoff = some (emit (keptLines buffer cutoff)) := by
  have := filterLoop_eq buffer cutoff buffer.length { pos := 0, output := [] } (by simp)
  simpa [filterFile] using this

/-! ## Facts about lines, segments and the classifier -/

theorem segments_eq_nil_iff (s : List Byte) : segments s = [] ↔ s = [] := by
  constructor
  · intro h
    cases s with
    | nil => rfl
    | cons b bs => rw [segments_cons_eq] at h; exact absurd h (by simp)
  · intro h; subst h; rfl

/-- Every segment of a buffer is a line of it: the tail is a non-empty suffix
of the buffer and the line is the first line of the tail. -/
theorem segments_mem (s : List Byte) :
    ∀ seg ∈ segments s, seg.1 = lineOf seg.2 ∧ seg.2 ≠ [] ∧ seg.2 <:+ s := by
  suffices H : ∀ (n : Nat) (s : List Byte), s.length ≤ n →
      ∀ seg ∈ segments s, seg.1 = lineOf seg.2 ∧ seg.2 ≠ [] ∧ seg.2 <:+ s from
    H s.length s (Nat.le_refl _)
  intro n
  induction n with
  | zero =>
    intro s hs seg hmem
    have : s = [] := List.length_eq_zero.1 (Nat.le_zero.1 hs)
    subst this
    simp [segments] at hmem
  | succ n ih =>
    intro s hs seg hmem
    cases s with
    | nil => simp [segments] at hmem
    | cons b bs =>
      rw [segments_cons_eq] at hmem
      rcases List.mem_cons.1 hmem with e | e
      · subst e
        exact ⟨rfl, by simp, List.suffix_refl _⟩
      · have hlt : ((b :: bs).drop ((lineOf (b :: bs)).length + 1)).length ≤ n := by
          simp at hs ⊢; omega
        obtain ⟨h1, h2, h3⟩ := ih _ hlt seg e
        exact ⟨h1, h2, h3.trans (List.drop_suffix _ _)⟩

theorem lf_not_mem_of_mem_lines {buffer l : List Byte} (h : l ∈ lines buffer) : LF ∉ l := by
  obtain ⟨seg, hseg, rfl⟩ := List.mem_map.1 h
  rw [(segments_mem buffer seg hseg).1]
  exact lf_not_mem_lineOf _

/-- The classifier reads the length and the first four bytes at the cursor. -/
theorem isAtomRecord_iff (buffer : List Byte) (pos len : Nat) :
    isAtomRecord buffer pos len = true ↔
      66 < len ∧ ((buffer.drop pos).take 4 = [65, 84, 79, 77] ∨
        (buffer.drop pos).take 4 = [72, 69, 84, 65]) := by
  rw [isAtomRecord_drop]
  generalize buffer.drop pos = s
  rcases s with _ | ⟨a, _ | ⟨b, _ | ⟨c, _ | ⟨d, r⟩⟩⟩⟩ <;>
    simp [isAtomRecord, lineByte]
  tauto

theorem isAtomLine_iff (l : List Byte) :
    isAtomLine l = true ↔
      66 < l.length ∧ (l.take 4 = [65, 84, 79, 77] ∨ l.take 4 = [72, 69, 84, 65]) := by
  simp [isAtomLine, isAtomRecord_iff]

theorem filterable_eq_isAtomLine {seg : List Byte × List Byte} (h : seg.1 = lineOf seg.2) :
    filterable seg = isAtomLine seg.1 := by
  have ht : seg.2.take seg.1.length = seg.1 := by
    conv_lhs => rw [h]
    rw [take_lineOf, ← h]
  rw [Bool.eq_iff_iff, filterable, isAtomRecord_iff, isAtomLine_iff]
  simp only [List.drop_zero]
  constructor
  · rintro ⟨h1, h2⟩
    refine ⟨h1, ?_⟩
    rw [← ht, List.take_take, Nat.min_eq_left (by omega)]
    exact h2
  · rintro ⟨h1, h2⟩
    refine ⟨h1, ?_⟩
    rw [← ht, List.take_take, Nat.min_eq_left (by omega)] at h2
    exact h2

/-! ## Comparisons of doubles -/

theorem Double.ge_self (c : Double) : Double.ge c c = !c.isNaN := by
  cases c <;> simp [Double.ge, Double.isNaN, Double.finLe]

theorem Double.finLe_eq_not_finLt (m1 e1 m2 e2 : Int) :
    Double.finLe m2 e2 m1 e1 = !Double.finLt m1 e1 m2 e2 := by
  unfold Double.finLe Double.finLt
  rw [min_comm e2 e1]
  by_cases h : Double.scaled m1 e1 (min e1 e2) < Double.scaled m2 e2 (min e1 e2)
  · simp [h]
  · simp [h, not_lt.1 h]

theorem Double.ge_eq_false_iff (b c : Double) :
    Double.ge b c = false ↔
      (Double.lt b c = true ∨ b.isNaN = true ∨ c.isNaN = true) := by
  cases b <;> cases c <;>
    simp [Double.ge, Double.lt, Double.isNaN, Double.finLe_eq_not_finLt]

theorem Double.ge_of_lt {b c : Double} (h : Double.lt c b = true) : Double.ge b c = true := by
  cases b <;> cases c <;> simp_all [Double.ge, Double.lt]
  rename_i m1 e1 m2 e2
  simp only [Double.finLe, Double.finLt, decide_eq_true_eq] at h ⊢
  exact le_of_lt h

theorem Double.not_ge_of_lt {b c : Double} (h : Double.lt b c = true) :
    Double.ge b c = false :=
  (Double.ge_eq_false_iff b c).2 (Or.inl h)

/-! ## Lines and their concatenation -/

theorem emit_lines_cons (b : Byte) (bs : List Byte) :
    emit (lines (b :: bs)) =
      if b = LF then LF :: emit (lines bs)
      else if bs = [] then [b, LF] else b :: emit (lines bs) := by
  by_cases hb : b = LF
  · simp [lines, segments, emit, hb]
  · rw [if_neg hb]
    cases hs : segments bs with
    | nil =>
      have : bs = [] := (segments_eq_nil_iff bs).1 hs
      simp [lines, segments, emit, hb, hs, this]
    | cons p rest =>
      have hne : bs ≠ [] := fun e => by rw [e] at hs; simp [segments] at hs
      simp [lines, segments, emit, hb, hs, hne]

/-- Joining the lines of a buffer, each with its LF, gives the buffer back,
with a final LF added when it lacked one. -/
theorem emit_lines (buffer : List Byte) : emit (lines buffer) = withFinalLF buffer := by
  induction buffer with
  | nil => simp [lines, segments, emit, withFinalLF]
  | cons b bs ih =>
    rw [emit_lines_cons, ih]
    by_cases hb : b = LF
    · subst hb
      cases bs with
      | nil => simp [withFinalLF]
      | cons c cs =>
        simp only [withFinalLF, List.getLast?_cons_cons]
        by_cases hl : (c :: cs).getLast? = some LF
        · simp [hl]
        · simp [hl]
    · rw [if_neg hb]
      cases bs with
      | nil => simp [withFinalLF, hb]
      | cons c cs =>
        simp only [withFinalLF, List.getLast?_cons_cons]
        by_cases hl : (c :: cs).getLast? = some LF
        · simp [hl]
        · simp [hl]

theorem keptLines_sublist (buffer : List Byte) (cutoff : Double) :
    (keptLines buffer cutoff).Sublist (lines buffer) :=
  List.Sublist.map _ (List.filter_sublist _)

theorem retained_of_not_filterable {cutoff : Double} {seg : List Byte × List Byte}
    (h : filterable seg = false) : retained cutoff seg = true := by
  simp [retained, h]

theorem not_filterable_of_short {seg : List Byte × List Byte} (h : seg.1.length ≤ 66) :
    filterable seg = false := by
  have : ¬ 66 < seg.1.length := by omega
  simp [filterable, isAtomRecord, this]

theorem count_nil_kept (cutoff : Double) (segs : List (List Byte × List Byte)) :
    ((segs.filter (retained cutoff)).map Prod.fst).count [] =
      (segs.map Prod.fst).count [] := by
  induction segs with
  | nil => rfl
  | cons seg segs ih =>
    by_cases hr : retained cutoff seg = true
    · simp [List.filter_cons, hr, List.count_cons, ih]
    · have hne : seg.1 ≠ [] := by
        intro e
        exact hr (retained_of_not_filterable (not_filterable_of_short (by simp [e])))
      simp [List.filter_cons, hr, List.count_cons, ih, hne]

/-! ## Further facts about `emit`, `lines` and `segments` -/

theorem emit_eq_nil_iff (ls : List (List Byte)) : emit ls = [] ↔ ls = [] := by
  cases ls with
  | nil => simp [emit]
  | cons l ls => simp [emit]

theorem emit_getLast (ls : List (List Byte)) :
    emit ls = [] ∨ (emit ls).getLast? = some LF := by
  induction ls with
  | nil => exact Or.inl rfl
  | cons l ls ih =>
    right
    rcases ih with h | h
    · simp [emit, h]
    · have hne : emit ls ≠ [] := fun e => by simp [e] at h
      obtain ⟨x, xs, hx⟩ := List.exists_cons_of_ne_nil hne
      have : l ++ LF :: emit ls = (l ++ [LF]) ++ emit ls := by simp
      rw [emit, this, List.getLast?_append, h]
      rfl

theorem emit_length_le_of_sublist {ls ls' : List (List Byte)} (h : ls.Sublist ls') :
    (emit ls).length ≤ (emit ls').length := by
  induction h with
  | slnil => exact Nat.le_refl _
  | cons a _ ih => simp [emit]; omega
  | cons₂ a _ ih => simp [emit]; omega

theorem withFinalLF_length_le (buffer : List Byte) :
    (withFinalLF buffer).length ≤ buffer.length + 1 := by
  unfold withFinalLF
  split <;> simp

theorem withFinalLF_of_terminated {buffer : List Byte}
    (h : buffer = [] ∨ buffer.getLast? = some LF) : withFinalLF buffer = buffer := by
  simp [withFinalLF, h]

theorem lineOf_append_lf {l : List Byte} (h : LF ∉ l) (t : List Byte) :
    lineOf (l ++ LF :: t) = l := by
  induction l with
  | nil => simp [lineOf_cons_lf]
  | cons b l ih =>
    have hb : b ≠ LF := fun e => h (by simp [e])
    have hl : LF ∉ l := fun e => h (by simp [e])
    rw [List.cons_append, lineOf_cons_ne hb, ih hl]

theorem segments_append_lf {l : List Byte} (h : LF ∉ l) (t : List Byte) :
    segments (l ++ LF :: t) = (l, l ++ LF :: t) :: segments t := by
  rw [segments_eq (by simp), lineOf_append_lf h]
  simp

theorem lines_emit {ls : List (List Byte)} (h : ∀ l ∈ ls, LF ∉ l) : lines (emit ls) = ls := by
  induction ls with
  | nil => rfl
  | cons l ls ih =>
    have hl : LF ∉ l := h l (by simp)
    have hls : ∀ l' ∈ ls, LF ∉ l' := fun l' hm => h l' (by simp [hm])
    have ih' := ih hls
    unfold lines at ih' ⊢
    rw [emit, segments_append_lf hl, List.map_cons, ih']

theorem segments_of_no_lf {l : List Byte} (hne : l ≠ []) (h : LF ∉ l) :
    segments l = [(l, l)] := by
  rw [segments_eq hne, lineOf_of_not_mem h, List.drop_eq_nil_of_le (Nat.le_succ _)]
  rfl

/-- Bytes that follow a buffer ending with LF do not change how that buffer
splits into lines: only the tails grow. -/
theorem segments_append_of_terminated (pre t : List Byte)
    (h : pre = [] ∨ pre.getLast? = some LF) :
    segments (pre ++ t) =
      (segments pre).map (fun seg => (seg.1, seg.2 ++ t)) ++ segments t := by
  induction pre with
  | nil => simp [segments]
  | cons b bs ih =>
    have hbs : bs = [] ∨ bs.getLast? = some LF := by
      cases bs with
      | nil => exact Or.inl rfl
      | cons c cs =>
        right
        rcases h with h | h
        · exact absurd h (by simp)
        · rwa [List.getLast?_cons_cons] at h
    have ih' := ih hbs
    by_cases hb : b = LF
    · subst hb
      simp [segments, ih']
    · have hne : bs ≠ [] := by
        intro e
        subst e
        rcases h with h | h
        · exact absurd h (by simp)
        · simp at h; exact hb h
      cases hs : segments bs with
      | nil => exact absurd ((segments_eq_nil_iff bs).1 hs) hne
      | cons p rest =>
        rw [hs] at ih'
        simp [segments, hb, hs, ih']

theorem filter_eq_self_of_all {α : Type} (p : α → Bool) (xs : List α)
    (h : ∀ x ∈ xs, p x = true) : xs.filter p = xs :=
  List.filter_eq_self.2 h

theorem filter_congr_mem {α : Type} (p q : α → Bool) (xs : List α)
    (h : ∀ x ∈ xs, p x = q x) : xs.filter p = xs.filter q := by
  induction xs with
  | nil => rfl
  | cons x xs ih =>
    have hx := h x (by simp)
    have hxs : ∀ y ∈ xs, p y = q y := fun y hy => h y (by simp [hy])
    simp [List.filter_cons, hx, ih hxs]

/-! ## The concrete scenarios of the specification, evaluated on the model -/

/-- Scenario S2: a record with the B-factor 75.00 is preserved with the cutoff 50. -/
theorem scenario_retain_above :
    filterFile (atomRecord " 75.00           N" ++ [LF]) cutoff50 =
      some (atomRecord " 75.00           N" ++ [LF]) := by
  decide

/-- Scenario S4: a record with the B-factor 50.00 is retained with the cutoff 50. -/
theorem scenario_boundary_equality :
    filterFile (atomRecord " 50.00           N" ++ [LF]) cutoff50 =
      some (atomRecord " 50.00           N" ++ [LF]) := by
  decide

/-- Scenario S5: of HEADER, ATOM (80.00), ATOM (20.00), END the cutoff 50
leaves HEADER, ATOM (80.00), END, in this order. -/
theorem scenario_mixed :
    filterFile (mixedFile ++ [LF]) cutoff50 =
      some (bytes "HEADER    TEST" ++ [LF] ++ atomRecord " 80.00           N" ++ [LF] ++
        bytes "END" ++ [LF]) := by
  decide

/-! ## The claims about the per-file filter -/

/-- C1, as stated, fails. The buffer is one 78-byte ATOM record whose B-factor
field reads `nan`, followed by LF; the cutoff is 50. `atof` returns NaN, the
test `b >= cutoff` is false and the loop suppresses the record (the output is
empty), although NaN is not strictly less than 50: the rule as stated would
retain the record. -/
theorem C1_nan_record_suppressed :
    filterFile (atomRecord "   nan           N" ++ [LF]) cutoff50 = some [] ∧
      segments (atomRecord "   nan           N" ++ [LF]) =
        [(atomRecord "   nan           N", atomRecord "   nan           N" ++ [LF])] ∧
      filterable (atomRecord "   nan           N", atomRecord "   nan           N" ++ [LF]) = true ∧
      Double.lt (bfactor (atomRecord "   nan           N",
        atomRecord "   nan           N" ++ [LF])) cutoff50 = false ∧
      filterFile (atomRecord "   nan           N" ++ [LF]) cutoff50 ≠
        some (emit (linesAsStated (atomRecord "   nan           N" ++ [LF]) cutoff50)) := by
  decide

/-- C1, amended. For every buffer and cutoff the filter returns exactly the
lines that are not suppressed, in order, each followed by LF, where a line is
suppressed iff it is classified ATOM/HETATM and its extracted B-factor fails
the test `b >= cutoff`. That test fails iff the B-factor is strictly less than
the cutoff or one of the two is NaN; in particular a value compared with itself
passes unless it is NaN, so a record whose B-factor equals the cutoff is
retained. -/
theorem C1_suppressed_iff_fails_ge (buffer : List Byte) (cutoff : Double) :
    filterFile buffer cutoff =
        some (emit (((segments buffer).filter
          (fun seg => !(filterable seg && !Double.ge (bfactor seg) cutoff))).map Prod.fst)) ∧
      (∀ b c : Double, Double.ge b c = false ↔
        (Double.lt b c = true ∨ b.isNaN = true ∨ c.isNaN = true)) ∧
      (∀ c : Double, Double.ge c c = !c.isNaN) := by
  refine ⟨?_, Double.ge_eq_false_iff, Double.ge_self⟩
  have hfun : retained cutoff =
      fun seg => !(filterable seg && !Double.ge (bfactor seg) cutoff) := by
    funext seg
    cases h1 : filterable seg <;> cases h2 : Double.ge (bfactor seg) cutoff <;>
      simp [retained, h1, h2]
  rw [filterFile_eq, keptLines, hfun]

/-- C2. The loop classifies a line as an atomic record iff its length is
strictly greater than 66 and its first four bytes are exactly `ATOM` or exactly
`HETA`: this holds for the test as the loop evaluates it at any cursor, and for
every line of a buffer in terms of the bytes of the line itself. Consequently
every line of at most 66 bytes is among the lines whose concatenation the
filter returns, whatever the cutoff. -/
theorem C2_classifier (buffer : List Byte) (cutoff : Double) :
    (∀ (buf : List Byte) (pos len : Nat), isAtomRecord buf pos len = true ↔
        66 < len ∧ ((buf.drop pos).take 4 = bytes "ATOM" ∨
          (buf.drop pos).take 4 = bytes "HETA")) ∧
      (∀ seg ∈ segments buffer, filterable seg = true ↔
        66 < seg.1.length ∧ (seg.1.take 4 = bytes "ATOM" ∨ seg.1.take 4 = bytes "HETA")) ∧
      filterFile buffer cutoff =
        some (emit (((segments buffer).filter (retained cutoff)).map Prod.fst)) ∧
      (∀ seg ∈ segments buffer, seg.1.length ≤ 66 →
        seg ∈ (segments buffer).filter (retained cutoff)) := by
  have hA : bytes "ATOM" = [65, 84, 79, 77] := by decide
  have hH : bytes "HETA" = [72, 69, 84, 65] := by decide
  rw [hA, hH]
  refine ⟨isAtomRecord_iff, ?_, filterFile_eq buffer cutoff, ?_⟩
  · intro seg hseg
    rw [filterable_eq_isAtomLine (segments_mem buffer seg hseg).1, isAtomLine_iff]
  · intro seg hseg hlen
    exact List.mem_filter.2
      ⟨hseg, retained_of_not_filterable (not_filterable_of_short hlen)⟩

/-- C2 at a concrete input: the 66-byte line that starts with `ATOM` and holds
`30.00` in its B-factor field is not classified as an atomic record and is
retained with the cutoff 50. -/
theorem C2_classifier_witness :
    (atomRecord " 30.00").length = 66 ∧
      (atomRecord " 30.00", atomRecord " 30.00" ++ [LF]) ∈
        (segments (atomRecord " 30.00" ++ [LF])).filter (retained cutoff50) :=
  ⟨by decide,
    (C2_classifier (atomRecord " 30.00" ++ [LF]) cutoff50).2.2.2
      (atomRecord " 30.00", atomRecord " 30.00" ++ [LF]) (by decide) (by decide)⟩

/-- C3. The lines of the buffer contain no LF and, each followed by one LF,
concatenate to the buffer itself (with one LF added when the buffer is not
empty and does not end with LF): they are the LF-delimited segments, a final
unterminated segment counts and a terminal LF opens no further line. The
filter returns the concatenation of (line, LF) over a sublist of these lines,
so in input order, every emitted line being a whole input line; and it retains
every empty line. -/
theorem C3_output_is_lines_sublist (buffer : List Byte) (cutoff : Double) :
    (∀ l ∈ lines buffer, LF ∉ l) ∧
      emit (lines buffer) = (if buffer = [] ∨ buffer.getLast? = some LF then buffer
        else buffer ++ [LF]) ∧
      filterFile buffer cutoff = some (emit (keptLines buffer cutoff)) ∧
      (keptLines buffer cutoff).Sublist (lines buffer) ∧
      (keptLines buffer cutoff).count [] = (lines buffer).count [] :=
  ⟨fun _ h => lf_not_mem_of_mem_lines h, emit_lines buffer, filterFile_eq buffer cutoff,
    keptLines_sublist buffer cutoff, count_nil_kept cutoff (segments buffer)⟩

/-- C4: the filter is not idempotent on this input. With the cutoff 0 the
first pass keeps the record with the blank B-factor field (`atof` runs over
the LF onto the next line, which starts with `ATOM`, and returns 0), drops the
record with the B-factor -5.00 and keeps the line `-1`. In the second pass the
blank record is followed by the line `-1`, its extracted value is -1, and the
record is dropped: the second output differs from the first. -/
theorem C4_second_pass_differs :
    filterFile threeLines cutoff0 = some (blankRecord ++ [LF] ++ bytes "-1" ++ [LF]) ∧
      filterFile (blankRecord ++ [LF] ++ bytes "-1" ++ [LF]) cutoff0 =
        some (bytes "-1" ++ [LF]) ∧
      bytes "-1" ++ [LF] ≠ blankRecord ++ [LF] ++ bytes "-1" ++ [LF] := by
  decide

/-- C5: the extractor does not stop at the end of the line. The same 67-byte
record with a blank B-factor field is the first line of two buffers; followed
by the line `99` its extracted value is 99 and the record is kept with the
cutoff 50, followed by the line `1` its extracted value is 1 and the record is
dropped. -/
theorem C5_value_depends_on_next_line :
    segments (blankRecord ++ [LF] ++ bytes "99" ++ [LF]) =
        [(blankRecord, blankRecord ++ [LF] ++ bytes "99" ++ [LF]),
          (bytes "99", bytes "99" ++ [LF])] ∧
      segments (blankRecord ++ [LF] ++ bytes "1" ++ [LF]) =
        [(blankRecord, blankRecord ++ [LF] ++ bytes "1" ++ [LF]),
          (bytes "1", bytes "1" ++ [LF])] ∧
      filterable (blankRecord, blankRecord ++ [LF] ++ bytes "99" ++ [LF]) = true ∧
      bfactor (blankRecord, blankRecord ++ [LF] ++ bytes "99" ++ [LF]) = atof (bytes "99") ∧
      bfactor (blankRecord, blankRecord ++ [LF] ++ bytes "1" ++ [LF]) = atof (bytes "1") ∧
      Double.lt (atof (bytes "1")) (atof (bytes "99")) = true ∧
      filterFile (blankRecord ++ [LF] ++ bytes "99" ++ [LF]) cutoff50 =
        some (blankRecord ++ [LF] ++ bytes "99" ++ [LF]) ∧
      filterFile (blankRecord ++ [LF] ++ bytes "1" ++ [LF]) cutoff50 =
        some (bytes "1" ++ [LF]) := by
  decide

/-- C6. When the cutoff is strictly below the extracted B-factor of every line
classified ATOM/HETATM, the filter returns the input itself if the input is
empty or ends with LF, and the input followed by one LF otherwise. -/
theorem C6_low_cutoff_keeps_all (buffer : List Byte) (cutoff : Double)
    (h : ∀ seg ∈ segments buffer, filterable seg = true →
      Double.lt cutoff (bfactor seg) = true) :
    filterFile buffer cutoff =
      some (if buffer = [] ∨ buffer.getLast? = some LF then buffer else buffer ++ [LF]) := by
  have hall : ∀ seg ∈ segments buffer, retained cutoff seg = true := by
    intro seg hseg
    cases hf : filterable seg with
    | false => exact retained_of_not_filterable hf
    | true => simp [retained, Double.ge_of_lt (h seg hseg hf)]
  rw [filterFile_eq, keptLines, filter_eq_self_of_all _ _ hall]
  exact congrArg some (emit_lines buffer)

/-- C6 at a concrete input: the four lines HEADER, ATOM (80.00), ATOM (20.00),
END without a final LF, with the cutoff 0, come back unchanged but for the
added final LF. -/
theorem C6_low_cutoff_keeps_all_witness :
    (∀ seg ∈ segments mixedFile, filterable seg = true →
        Double.lt cutoff0 (bfactor seg) = true) ∧
      filterFile mixedFile cutoff0 =
        some (if mixedFile = [] ∨ mixedFile.getLast? = some LF then mixedFile
          else mixedFile ++ [LF]) :=
  ⟨by decide, C6_low_cutoff_keeps_all mixedFile cutoff0 (by decide)⟩

/-- C7. When the cutoff is strictly above the extracted B-factor of every line
classified ATOM/HETATM, the filter returns the lines that are not classified
ATOM/HETATM, all of them and in input order, each followed by LF; these are
exactly the lines of the output, and no line of the output is classified
ATOM/HETATM. -/
theorem C7_high_cutoff_drops_atoms (buffer : List Byte) (cutoff : Double)
    (h : ∀ seg ∈ segments buffer, filterable seg = true →
      Double.lt (bfactor seg) cutoff = true) :
    ∃ out, filterFile buffer cutoff = some out ∧
      out = emit (((segments buffer).filter (fun seg => !filterable seg)).map Prod.fst) ∧
      lines out = ((segments buffer).filter (fun seg => !filterable seg)).map Prod.fst ∧
      ∀ seg ∈ segments out, filterable seg = false := by
  have hfilt : (segments buffer).filter (retained cutoff) =
      (segments buffer).filter (fun seg => !filterable seg) := by
    apply filter_congr_mem
    intro seg hseg
    cases hf : filterable seg with
    | false => simp [retained, hf]
    | true => simp [retained, hf, Double.not_ge_of_lt (h seg hseg hf)]
  have hnolf : ∀ l ∈ ((segments buffer).filter (fun seg => !filterable seg)).map Prod.fst,
      LF ∉ l := by
    intro l hl
    obtain ⟨seg, hseg, rfl⟩ := List.mem_map.1 hl
    rw [(segments_mem buffer seg (List.mem_filter.1 hseg).1).1]
    exact lf_not_mem_lineOf _
  refine ⟨_, filterFile_eq buffer cutoff, ?_, ?_, ?_⟩
  · rw [keptLines, hfilt]
  · rw [keptLines, hfilt, lines_emit hnolf]
  · intro seg hseg
    have hline : seg.1 ∈ lines (emit (keptLines buffer cutoff)) :=
      List.mem_map.2 ⟨seg, hseg, rfl⟩
    rw [keptLines, hfilt, lines_emit hnolf] at hline
    obtain ⟨seg', hseg', heq⟩ := List.mem_map.1 hline
    have hmem := List.mem_filter.1 hseg'
    have h1 : filterable seg' = false := by simpa using hmem.2
    rw [filterable_eq_isAtomLine (segments_mem _ seg hseg).1, ← heq,
      ← filterable_eq_isAtomLine (segments_mem buffer seg' hmem.1).1]
    exact h1

/-- C7 at a concrete input: of the four lines HEADER, ATOM (80.00), ATOM
(20.00), END, the cutoff 90 leaves HEADER and END. -/
theorem C7_high_cutoff_drops_atoms_witness :
    (∀ seg ∈ segments mixedFile, filterable seg = true →
        Double.lt (bfactor seg) (atof (bytes "90")) = true) ∧
      filterFile mixedFile (atof (bytes "90")) =
        some (bytes "HEADER    TEST" ++ [LF] ++ bytes "END" ++ [LF]) :=
  ⟨by decide,
    (C7_high_cutoff_drops_atoms mixedFile (atof (bytes "90")) (by decide)).elim
      (fun _ hout => hout.1.trans (congrArg some (hout.2.1.trans (by decide))))⟩

/-- C8, as stated, fails. The 3-byte buffer `END` has no final LF; its one
line is retained and the filter appends an LF to it, so the output has 4
bytes, one more than the input. -/
theorem C8_output_longer_than_input :
    filterFile (bytes "END") cutoff50 = some (bytes "END" ++ [LF]) ∧
      (bytes "END").length < (bytes "END" ++ [LF]).length := by
  decide

/-- C8, amended. The output is never more than one byte longer than the input,
and it is not longer than the input when the input is empty or ends with LF. -/
theorem C8_output_length_bound (buffer : List Byte) (cutoff : Double) :
    ∃ out, filterFile buffer cutoff = some out ∧
      out.length ≤ buffer.length + 1 ∧
      ((buffer = [] ∨ buffer.getLast? = some LF) → out.length ≤ buffer.length) := by
  have hle : (emit (keptLines buffer cutoff)).length ≤ (withFinalLF buffer).length := by
    rw [← emit_lines]
    exact emit_length_le_of_sublist (keptLines_sublist buffer cutoff)
  refine ⟨_, filterFile_eq buffer cutoff, ?_, ?_⟩
  · exact Nat.le_trans hle (withFinalLF_length_le buffer)
  · intro hterm
    rwa [withFinalLF_of_terminated hterm] at hle

/-- C8, amended, at a concrete input: the file of four lines that lacks the
final LF gives, with the cutoff 50, an output within the first bound, and the
same file with the final LF an output not longer than the input. -/
theorem C8_output_length_bound_witness :
    (∃ out, filterFile mixedFile cutoff50 = some out ∧
        out.length ≤ mixedFile.length + 1) ∧
      (∃ out, filterFile (mixedFile ++ [LF]) cutoff50 = some out ∧
        out.length ≤ (mixedFile ++ [LF]).length) :=
  ⟨(C8_output_length_bound mixedFile cutoff50).elim
      (fun out hout => ⟨out, hout.1, hout.2.1⟩),
    (C8_output_length_bound (mixedFile ++ [LF]) cutoff50).elim
      (fun out hout => ⟨out, hout.1, hout.2.2 (Or.inr (by decide))⟩)⟩

/-- C9. The output is empty or ends with LF. When the input ends with a
non-empty line that has no terminating LF and that line is retained, the
output ends with that line followed by one LF, after the retained ones of the
lines before it. When the input ends with LF, its lines with their LFs make up
the input exactly, the output consists of a sublist of them and is not longer
than the input: no LF and no empty line is added. -/
theorem C9_final_newline (buffer : List Byte) (cutoff : Double) :
    ∃ out, filterFile buffer cutoff = some out ∧
      (out = [] ∨ out.getLast? = some LF) ∧
      (∀ pre last : List Byte, buffer = pre ++ last →
        (pre = [] ∨ pre.getLast? = some LF) → last ≠ [] → LF ∉ last →
        retained cutoff (last, last) = true →
        ∃ ls, ls.Sublist (lines pre) ∧ out = emit ls ++ last ++ [LF]) ∧
      (buffer.getLast? = some LF →
        emit (lines buffer) = buffer ∧
        ∃ ls, ls.Sublist (lines buffer) ∧ out = emit ls ∧ out.length ≤ buffer.length) := by
  refine ⟨_, filterFile_eq buffer cutoff, emit_getLast _, ?_, ?_⟩
  · intro pre last hbuf hpre hne hnolf hret
    subst hbuf
    refine ⟨(((segments pre).map (fun seg => (seg.1, seg.2 ++ last))).filter
      (retained cutoff)).map Prod.fst, ?_, ?_⟩
    · have hsub : ((((segments pre).map (fun seg => (seg.1, seg.2 ++ last))).filter
          (retained cutoff)).map Prod.fst).Sublist
          (((segments pre).map (fun seg => (seg.1, seg.2 ++ last))).map Prod.fst) :=
        List.Sublist.map _ (List.filter_sublist _)
      have hmap : ((segments pre).map (fun seg => (seg.1, seg.2 ++ last))).map Prod.fst =
          lines pre := by
        simp [lines, List.map_map, Function.comp_def]
      rwa [hmap] at hsub
    · rw [keptLines, segments_append_of_terminated pre last hpre,
        segments_of_no_lf hne hnolf, List.filter_append, List.map_append, emit_append]
      simp [List.filter_cons, hret, emit]
  · intro hterm
    have hnorm : withFinalLF buffer = buffer := withFinalLF_of_terminated (Or.inr hterm)
    refine ⟨by rw [emit_lines, hnorm], keptLines buffer cutoff,
      keptLines_sublist buffer cutoff, rfl, ?_⟩
    have hle := emit_length_le_of_sublist (keptLines_sublist buffer cutoff)
    rwa [emit_lines, hnorm] at hle

/-- C9 at a concrete input (scenario S6): the input is the line HEADER with
its LF followed by an ATOM record with the B-factor 90.00 and no LF; with the
cutoff 50 the output ends with that record followed by one LF. -/
theorem C9_final_newline_witness :
    ∃ ls, ls.Sublist (lines (bytes "HEADER    TEST" ++ [LF])) ∧
      filterFile (bytes "HEADER    TEST" ++ [LF] ++ atomRecord " 90.00           N") cutoff50 =
        some (emit ls ++ atomRecord " 90.00           N" ++ [LF]) :=
  (C9_final_newline (bytes "HEADER    TEST" ++ [LF] ++ atomRecord " 90.00           N")
      cutoff50).elim
    (fun _ hout =>
      (hout.2.2.1 (bytes "HEADER    TEST" ++ [LF]) (atomRecord " 90.00           N") rfl
          (Or.inr (by decide)) (by decide) (by decide) (by decide)).elim
        (fun ls hls => ⟨ls, hls.1, hout.1.trans (congrArg some hls.2)⟩))

/-- C10. The output is empty exactly when the input is empty or every line of
the input is suppressed; the input has no lines exactly when it is empty; the
empty input gives the empty output, and the input that is a single LF (one
empty line) gives a single LF. -/
theorem C10_empty_output (buffer : List Byte) (cutoff : Double) :
    ∃ out, filterFile buffer cutoff = some out ∧
      (out = [] ↔ (buffer = [] ∨ ∀ seg ∈ segments buffer, retained cutoff seg = false)) ∧
      (lines buffer = [] ↔ buffer = []) ∧
      filterFile [] cutoff = some [] ∧
      filterFile [LF] cutoff = some [LF] := by
  refine ⟨_, filterFile_eq buffer cutoff, ?_, ?_, ?_, ?_⟩
  · rw [emit_eq_nil_iff, keptLines, List.map_eq_nil_iff, List.filter_eq_nil_iff]
    constructor
    · intro h
      right
      intro seg hseg
      simpa using h seg hseg
    · rintro (h | h)
      · subst h; simp [segments]
      · intro seg hseg
        simp [h seg hseg]
  · simp [lines, segments_eq_nil_iff]
  · rw [filterFile_eq]; rfl
  · rw [filterFile_eq]
    have hseg : segments [LF] = [([], [LF])] := by simp [segments]
    have hret : retained cutoff ([], [LF]) = true :=
      retained_of_not_filterable (not_filterable_of_short (by simp))
    simp [keptLines, hseg, hret, emit]

/-- C10 at a concrete input (scenario S3): the single ATOM record with the
B-factor 30.00 is suppressed with the cutoff 50, and the output is empty. -/
theorem C10_empty_output_witness :
    filterFile (atomRecord " 30.00           N" ++ [LF]) cutoff50 = some [] :=
  (C10_empty_output (atomRecord " 30.00           N" ++ [LF]) cutoff50).elim
    (fun _ hout =>
      hout.1.trans (congrArg some (hout.2.1.2 (Or.inr (by decide)))))

/-! ## Transitivity of the comparison of doubles -/

theorem Double.scaled_split (m e mid low : Int) (h1 : low ≤ mid) (h2 : mid ≤ e) :
    Double.scaled m e low = Double.scaled m e mid * Int.ofNat (2 ^ (mid - low).toNat) := by
  unfold Double.scaled
  have hsum : (e - low).toNat = (e - mid).toNat + (mid - low).toNat := by omega
  rw [hsum, pow_add]
  simp only [Int.ofNat_eq_coe]
  push_cast
  ring

theorem Double.finLe_iff_scaled (m1 e1 m2 e2 low : Int) (h : low ≤ min e1 e2) :
    Double.finLe m1 e1 m2 e2 = true ↔
      Double.scaled m1 e1 low ≤ Double.scaled m2 e2 low := by
  have hpos : (0 : Int) < Int.ofNat (2 ^ (min e1 e2 - low).toNat) := by
    simp only [Int.ofNat_eq_coe]
    positivity
  rw [Double.scaled_split m1 e1 (min e1 e2) low h (min_le_left _ _),
    Double.scaled_split m2 e2 (min e1 e2) low h (min_le_right _ _)]
  unfold Double.finLe
  rw [decide_eq_true_eq]
  exact (mul_le_mul_right hpos).symm

theorem Double.finLe_trans {m1 e1 m2 e2 m3 e3 : Int}
    (h12 : Double.finLe m1 e1 m2 e2 = true) (h23 : Double.finLe m2 e2 m3 e3 = true) :
    Double.finLe m1 e1 m3 e3 = true := by
  have hlow12 : min e1 (min e2 e3) ≤ min e1 e2 :=
    le_min (min_le_left _ _) ((min_le_right _ _).trans (min_le_left _ _))
  have hlow23 : min e1 (min e2 e3) ≤ min e2 e3 := min_le_right _ _
  have hlow13 : min e1 (min e2 e3) ≤ min e1 e3 :=
    le_min (min_le_left _ _) ((min_le_right _ _).trans (min_le_right _ _))
  rw [Double.finLe_iff_scaled _ _ _ _ _ hlow12] at h12
  rw [Double.finLe_iff_scaled _ _ _ _ _ hlow23] at h23
  rw [Double.finLe_iff_scaled _ _ _ _ _ hlow13]
  exact le_trans h12 h23

/-- When `b >= c2` and `c2 >= c1` hold, so does `b >= c1`. -/
theorem Double.ge_trans {b c2 c1 : Double}
    (h1 : Double.ge b c2 = true) (h2 : Double.ge c2 c1 = true) : Double.ge b c1 = true := by
  cases b <;> cases c2 <;> cases c1 <;> simp_all [Double.ge]
  exact Double.finLe_trans h2 h1

theorem filter_sublist_of_imp {α : Type} (p q : α → Bool) (xs : List α)
    (h : ∀ x ∈ xs, p x = true → q x = true) : (xs.filter p).Sublist (xs.filter q) := by
  induction xs with
  | nil => exact List.Sublist.slnil
  | cons x xs ih =>
    have hxs : ∀ y ∈ xs, p y = true → q y = true := fun y hy => h y (by simp [hy])
    by_cases hp : p x = true
    · have hq : q x = true := h x (by simp) hp
      simp only [List.filter_cons, hp, hq, if_true]
      exact List.Sublist.cons₂ x (ih hxs)
    · by_cases hq : q x = true
      · simp only [List.filter_cons, hp, hq, if_true]
        exact List.Sublist.cons x (ih hxs)
      · simp only [List.filter_cons, hp, hq]
        exact ih hxs

/-- C16. For two cutoffs with `c1 <= c2`, every line that the decision retains
with `c2` it also retains with `c1`; both runs of the filter return, the lines
of the output for `c2` are a sublist of the lines of the output for `c1`, and
the output for `c2` is not longer than the output for `c1`. -/
theorem C16_monotone_in_cutoff (buffer : List Byte) (c1 c2 : Double)
    (h : Double.le c1 c2 = true) :
    (∀ seg ∈ segments buffer, retained c2 seg = true → retained c1 seg = true) ∧
      ∃ out1 out2, filterFile buffer c1 = some out1 ∧ filterFile buffer c2 = some out2 ∧
        out1 = emit (keptLines buffer c1) ∧ out2 = emit (keptLines buffer c2) ∧
        (keptLines buffer c2).Sublist (keptLines buffer c1) ∧
        (lines out2).Sublist (lines out1) ∧
        out2.length ≤ out1.length := by
  have hret : ∀ seg ∈ segments buffer, retained c2 seg = true → retained c1 seg = true := by
    intro seg _ h2
    cases hf : filterable seg with
    | false => exact retained_of_not_filterable hf
    | true =>
      have hge : Double.ge (bfactor seg) c2 = true := by simpa [retained, hf] using h2
      simp [retained, Double.ge_trans hge h]
  have hsub : (keptLines buffer c2).Sublist (keptLines buffer c1) :=
    List.Sublist.map _ (filter_sublist_of_imp _ _ _ hret)
  have hnolf : ∀ (c : Double), ∀ l ∈ keptLines buffer c, LF ∉ l := fun c l hl =>
    lf_not_mem_of_mem_lines ((keptLines_sublist buffer c).subset hl)
  refine ⟨hret, _, _, filterFile_eq buffer c1, filterFile_eq buffer c2, rfl, rfl, hsub, ?_,
    emit_length_le_of_sublist hsub⟩
  rw [lines_emit (hnolf c1), lines_emit (hnolf c2)]
  exact hsub

/-- C16 at a concrete input: the four lines HEADER, ATOM (80.00), ATOM (20.00),
END with the cutoffs 0 and 50. The cutoff 0 keeps all four lines, the cutoff 50
drops the record with 20.00. -/
theorem C16_monotone_in_cutoff_witness :
    Double.le cutoff0 cutoff50 = true ∧
      (keptLines mixedFile cutoff50).Sublist (keptLines mixedFile cutoff0) ∧
      (keptLines mixedFile cutoff0).length = 4 ∧ (keptLines mixedFile cutoff50).length = 3 :=
  ⟨by decide,
    (C16_monotone_in_cutoff mixedFile cutoff0 cutoff50 (by decide)).2.elim
      (fun _ h1 => h1.elim (fun _ h2 => h2.2.2.2.2.1)),
    by decide, by decide⟩

/-! ## The cursor and the accesses of the loop -/

theorem lineEnd_eq (buffer : List Byte) (pos : Nat) (h : pos < buffer.length) :
    lineEnd buffer pos = pos + (lineOf (buffer.drop pos)).length := by
  have h1 := lineEnd_sub buffer pos
  have h2 := lineEnd_ge buffer pos h
  omega

theorem loopBody_pos (buffer : List Byte) (cutoff : Double) (st : LoopState) :
    (loopBody buffer cutoff st).pos = lineEnd buffer st.pos + 1 := by
  rw [loopBody_eq]

/-- The loop, given enough iterations, runs once for every line of the rest
of the buffer. -/
theorem loopIterations_eq (buffer : List Byte) (cutoff : Double) :
    ∀ (fuel : Nat) (st : LoopState), buffer.length - st.pos ≤ fuel →
      loopIterations buffer cutoff fuel st = some (segments (buffer.drop st.pos)).length := by
  intro fuel
  induction fuel with
  | zero =>
    intro st hf
    have hge : ¬ st.pos < buffer.length := by omega
    have hnil : buffer.drop st.pos = [] := List.drop_eq_nil_of_le (by omega)
    simp [loopIterations, hge, hnil, segments]
  | succ fuel ih =>
    intro st hf
    by_cases hlt : st.pos < buffer.length
    · have hne : buffer.drop st.pos ≠ [] := by
        intro e
        have := congrArg List.length e
        simp at this; omega
      have hge := lineEnd_ge buffer st.pos hlt
      rw [loopIterations, if_pos hlt, ih _ (by rw [loopBody_pos]; omega), loopBody_pos,
        drop_lineEnd_succ, segments_eq hne]
      simp
    · have hnil : buffer.drop st.pos = [] := List.drop_eq_nil_of_le (by omega)
      simp [loopIterations, hlt, hnil, segments]

theorem evalChain_fst (buffer : List Byte) (pos : Nat) (chain : List (Nat × Byte)) :
    (evalChain buffer pos chain).1 = chain.all (fun ic => lineByte buffer pos ic.1 == some ic.2) := by
  induction chain with
  | nil => rfl
  | cons ic rest ih =>
    obtain ⟨i, c⟩ := ic
    by_cases h : (lineByte buffer pos i == some c) = true
    · simp [evalChain, h, ih]
    · simp [evalChain, h]

theorem evalChain_reads (buffer : List Byte) (pos : Nat) (chain : List (Nat × Byte)) :
    ∀ i ∈ (evalChain buffer pos chain).2, i ∈ chain.map Prod.fst := by
  induction chain with
  | nil => intro i hi; simp [evalChain] at hi
  | cons ic rest ih =>
    obtain ⟨j, c⟩ := ic
    intro i hi
    by_cases h : (lineByte buffer pos j == some c) = true
    · simp only [evalChain, h, if_true, List.mem_cons] at hi
      rcases hi with e | e
      · simp [e]
      · simp [ih i e]
    · simp [evalChain, h] at hi
      simp [hi]

theorem evalCondition_fst (buffer : List Byte) (pos len : Nat) :
    (evalCondition buffer pos len).1 = isAtomRecord buffer pos len := by
  unfold evalCondition isAtomRecord
  simp only [evalChain_fst, List.all_cons, List.all_nil, Bool.and_true, ← Bool.and_assoc]
  by_cases hlen : len > 66
  · simp only [hlen, if_true, decide_True, Bool.true_and]
    cases (lineByte buffer pos 0 == some 65 && lineByte buffer pos 1 == some 84 &&
      lineByte buffer pos 2 == some 79 && lineByte buffer pos 3 == some 77) <;> simp
  · simp [hlen]

theorem evalCondition_reads (buffer : List Byte) (pos len : Nat) :
    ∀ i ∈ (evalCondition buffer pos len).2, 66 < len ∧ i ≤ 3 := by
  intro i hi
  unfold evalCondition at hi
  by_cases hlen : len > 66
  · refine ⟨hlen, ?_⟩
    have hA := evalChain_reads buffer pos [(0, 65), (1, 84), (2, 79), (3, 77)] i
    have hH := evalChain_reads buffer pos [(0, 72), (1, 69), (2, 84), (3, 65)] i
    have hmem : i ∈ ([0, 1, 2, 3] : List Nat) := by
      by_cases h1 : (evalChain buffer pos [(0, 65), (1, 84), (2, 79), (3, 77)]).1 = true
      · rw [if_pos hlen, if_pos h1] at hi
        simpa using hA hi
      · rw [if_pos hlen, if_neg h1] at hi
        rcases List.mem_append.1 hi with e | e
        · simpa using hA e
        · simpa using hH e
    simp at hmem
    omega
  · simp [hlen] at hi

theorem lineByte_of_lt_line (buffer : List Byte) (pos i : Nat)
    (h : i < lineEnd buffer pos - pos) :
    ∃ b, lineByte buffer pos i = some b ∧ (lineOf (buffer.drop pos)).get? i = some b := by
  rw [lineEnd_sub] at h
  have hlt : i < (buffer.drop pos).length := Nat.lt_of_lt_of_le h (lineOf_length_le _)
  refine ⟨(lineOf (buffer.drop pos)).get ⟨i, h⟩, ?_, List.get?_eq_get h⟩
  have htake : (lineOf (buffer.drop pos)).get? i = (buffer.drop pos).get? i := by
    rw [← take_lineOf]
    simp only [List.get?_eq_getElem?]
    rw [List.getElem?_take_of_lt h]
  rw [lineByte, ← List.get?_eq_get h, htake]
  simp [List.get?_eq_getElem?, List.getElem?_drop]

/-- C14. In every iteration of the loop, whatever the cursor, the accesses
`line[i]` that the condition of lines 115-117 performs under short-circuit
evaluation (whose value is the classification the loop uses) happen only when
the line is longer than 66 bytes, have offsets 0 to 3, lie inside the line and
read a byte of the line, never out of range. Whenever the line is classified as
an atomic record, so that `fast_bfactor` is called, every offset up to 66 lies
inside the line: the bytes at offsets 60 to 65 and one further byte belong to
the line. -/
theorem C14_reads_inside_line (buffer : List Byte) (st : LoopState) :
    (evalCondition buffer st.pos (lineEnd buffer st.pos - st.pos)).1 =
        isAtomRecord buffer st.pos (lineEnd buffer st.pos - st.pos) ∧
      (∀ i ∈ (evalCondition buffer st.pos (lineEnd buffer st.pos - st.pos)).2,
        66 < lineEnd buffer st.pos - st.pos ∧ i ≤ 3 ∧
        i < lineEnd buffer st.pos - st.pos ∧
        ∃ b, lineByte buffer st.pos i = some b ∧
          (lineOf (buffer.drop st.pos)).get? i = some b) ∧
      (isAtomRecord buffer st.pos (lineEnd buffer st.pos - st.pos) = true →
        ∀ k, k ≤ 66 → k < lineEnd buffer st.pos - st.pos ∧
          ∃ b, lineByte buffer st.pos k = some b ∧
            (lineOf (buffer.drop st.pos)).get? k = some b) := by
  refine ⟨evalCondition_fst _ _ _, ?_, ?_⟩
  · intro i hi
    obtain ⟨hlen, hi3⟩ := evalCondition_reads _ _ _ i hi
    have hlt : i < lineEnd buffer st.pos - st.pos := by omega
    exact ⟨hlen, hi3, hlt, lineByte_of_lt_line buffer st.pos i hlt⟩
  · intro hrec k hk
    have hlen : 66 < lineEnd buffer st.pos - st.pos := ((isAtomRecord_iff _ _ _).1 hrec).1
    have hlt : k < lineEnd buffer st.pos - st.pos := by omega
    exact ⟨hlt, lineByte_of_lt_line buffer st.pos k hlt⟩

/-- C14 at a concrete input: for the 78-byte ATOM record with the B-factor
75.00 at the cursor 0, the condition reads the offsets 0, 1, 2, 3, the record
is classified, and the offset 66 lies inside the line. -/
theorem C14_reads_inside_line_witness :
    (evalCondition (atomRecord " 75.00           N" ++ [LF]) 0
        (lineEnd (atomRecord " 75.00           N" ++ [LF]) 0 - 0)).2 = [0, 1, 2, 3] ∧
      66 < lineEnd (atomRecord " 75.00           N" ++ [LF]) 0 - 0 :=
  ⟨by decide,
    ((C14_reads_inside_line (atomRecord " 75.00           N" ++ [LF])
      { pos := 0, output := [] }).2.2 (by decide) 66 (Nat.le_refl 66)).1⟩

/-- C15. The filter is the loop started with the cursor 0, and the loop
terminates: run for `size` iterations it returns an output. It performs
exactly one iteration for every line of the buffer. In every iteration (a state
with `pos < size`) the line end found lies between the cursor and `size`, it
is the cursor plus the length of the line at the cursor, and the new cursor is
the line end plus one, strictly greater than the old cursor. -/
theorem C15_loop_terminates (buffer : List Byte) (cutoff : Double) :
    filterFile buffer cutoff =
        filterLoop buffer cutoff buffer.length { pos := 0, output := [] } ∧
      (∃ out, filterLoop buffer cutoff buffer.length { pos := 0, output := [] } = some out) ∧
      loopIterations buffer cutoff buffer.length { pos := 0, output := [] } =
        some (lines buffer).length ∧
      (∀ st : LoopState, st.pos < buffer.length →
        st.pos ≤ (find buffer LF st.pos).getD buffer.length ∧
        (find buffer LF st.pos).getD buffer.length ≤ buffer.length ∧
        (find buffer LF st.pos).getD buffer.length =
          st.pos + (lineOf (buffer.drop st.pos)).length ∧
        (loopBody buffer cutoff st).pos = (find buffer LF st.pos).getD buffer.length + 1 ∧
        st.pos < (loopBody buffer cutoff st).pos) := by
  refine ⟨rfl, ⟨_, filterLoop_eq buffer cutoff buffer.length _ (by simp)⟩, ?_, ?_⟩
  · have h := loopIterations_eq buffer cutoff buffer.length { pos := 0, output := [] } (by simp)
    simpa [lines] using h
  · intro st hlt
    have hge := lineEnd_ge buffer st.pos hlt
    have hle := lineEnd_le buffer st.pos hlt
    have heq := lineEnd_eq buffer st.pos hlt
    have hpos := loopBody_pos buffer cutoff st
    unfold lineEnd at hge hle heq hpos
    exact ⟨hge, hle, heq, hpos, by omega⟩

/-- C15 at a concrete input: on the four lines HEADER, ATOM, ATOM, END (no
final LF) the loop runs four times, and its first iteration moves the cursor
from 0 to 15, past the 14 bytes of the HEADER line and its LF. -/
theorem C15_loop_terminates_witness :
    loopIterations mixedFile cutoff50 mixedFile.length { pos := 0, output := [] } = some 4 ∧
      (loopBody mixedFile cutoff50 { pos := 0, output := [] }).pos = 15 :=
  ⟨(C15_loop_terminates mixedFile cutoff50).2.2.1.trans (by decide),
    ((C15_loop_terminates mixedFile cutoff50).2.2.2 { pos := 0, output := [] }
      (by decide)).2.2.2.1.trans (by decide)⟩

/-! ## The dispatch loop -/

theorem dispatchBody_terminated (cutoff : Double) (total : Nat) (file : InputFile)
    (st : DispatchState) (h : st.terminated = true) :
    dispatchBody cutoff total file st = some st := by
  simp [dispatchBody, h]

theorem dispatchBody_openFailed (cutoff : Double) (total : Nat) (file : InputFile)
    (st : DispatchState) (h : file.input = ReadResult.openFailed) :
    dispatchBody cutoff total file st = some st := by
  by_cases ht : st.terminated = true
  · exact dispatchBody_terminated cutoff total file st ht
  · simp [dispatchBody, ht, h]

theorem dispatchBody_read (cutoff : Double) (total : Nat) (file : InputFile)
    (st : DispatchState) (buffer : List Byte) (ht : st.terminated = false)
    (h : file.input = ReadResult.read buffer) :
    dispatchBody cutoff total file st =
      some
        { progress := st.progress + 1,
          written := writeOutput file (emit (keptLines buffer cutoff)) st.written,
          stdout :=
            if (st.progress + 1) % report_interval = 0 then
              st.stdout ++ [(st.progress + 1, total)]
            else st.stdout,
          stderr := st.stderr,
          terminated := false } := by
  simp [dispatchBody, ht, h, filterFile_eq]

/-- The dispatch loop returns a final state, whatever the files. -/
theorem dispatchLoop_returns (cutoff : Double) (total : Nat) (files : List InputFile) :
    ∀ st : DispatchState, ∃ st1, dispatchLoop cutoff total files st = some st1 := by
  induction files with
  | nil => intro st; exact ⟨st, rfl⟩
  | cons file files ih =>
    intro st
    by_cases ht : st.terminated = true
    · obtain ⟨st1, h1⟩ := ih st
      exact ⟨st1, by simp [dispatchLoop, dispatchBody_terminated cutoff total file st ht, h1]⟩
    · have htf : st.terminated = false := by simpa using ht
      cases hc : file.input with
      | openFailed =>
        obtain ⟨st1, h1⟩ := ih st
        exact ⟨st1, by simp [dispatchLoop, dispatchBody_openFailed cutoff total file st hc, h1]⟩
      | resizeThrows =>
        obtain ⟨st1, h1⟩ := ih
          { progress := st.progress, written := st.written, stdout := st.stdout,
            stderr := st.stderr, terminated := true }
        exact ⟨st1, by simp [dispatchLoop, dispatchBody, htf, hc, h1]⟩
      | read buffer =>
        obtain ⟨st1, h1⟩ := ih
          { progress := st.progress + 1,
            written := writeOutput file (emit (keptLines buffer cutoff)) st.written,
            stdout :=
              if (st.progress + 1) % report_interval = 0 then
                st.stdout ++ [(st.progress + 1, total)]
              else st.stdout,
            stderr := st.stderr,
            terminated := false }
        exact ⟨st1, by
          simp [dispatchLoop, dispatchBody_read cutoff total file st buffer htf hc, h1]⟩

/-- When `buffer.resize` throws for no file of the list, the dispatch loop runs
to its end; the counter grows by the number of files that open, the writes are
the expected ones, and nothing is printed to `std::cerr`. -/
theorem dispatchLoop_eq (cutoff : Double) (total : Nat) (files : List InputFile)
    (hread : ∀ file ∈ files, file.input ≠ ReadResult.resizeThrows) :
    ∀ st : DispatchState, st.terminated = false →
      ∃ st1, dispatchLoop cutoff total files st = some st1 ∧
        st1.terminated = false ∧
        st1.progress = st.progress + openCount files ∧
        st1.written = st.written ++ expectedOutputs cutoff files ∧
        st1.stderr = st.stderr := by
  induction files with
  | nil =>
    intro st ht
    exact ⟨st, rfl, ht, by simp [openCount], by simp [expectedOutputs], rfl⟩
  | cons file files ih =>
    intro st ht
    have hfiles : ∀ f ∈ files, f.input ≠ ReadResult.resizeThrows :=
      fun f hf => hread f (List.mem_cons_of_mem _ hf)
    cases hc : file.input with
    | openFailed =>
      obtain ⟨st1, h1, h2, h3, h4, h5⟩ := ih hfiles st ht
      refine ⟨st1, ?_, h2, ?_, ?_, h5⟩
      · simp [dispatchLoop, dispatchBody_openFailed cutoff total file st hc, h1]
      · simp [h3, openCount, List.filter_cons, InputFile.opens, hc]
      · simp [h4, expectedOutputs, List.filterMap_cons, hc]
    | resizeThrows => exact absurd hc (hread file (List.mem_cons_self _ _))
    | read buffer =>
      obtain ⟨st1, h1, h2, h3, h4, h5⟩ := ih hfiles
        { progress := st.progress + 1,
          written := writeOutput file (emit (keptLines buffer cutoff)) st.written,
          stdout :=
            if (st.progress + 1) % report_interval = 0 then
              st.stdout ++ [(st.progress + 1, total)]
            else st.stdout,
          stderr := st.stderr,
          terminated := false } rfl
      refine ⟨st1, ?_, h2, ?_, ?_, h5⟩
      · simp [dispatchLoop, dispatchBody_read cutoff total file st buffer ht hc, h1]
      · simp [h3, openCount, List.filter_cons, InputFile.opens, hc]; omega
      · cases hroom : file.outputRoom with
        | none => simp [h4, expectedOutputs, List.filterMap_cons, hc, hroom, writeOutput]
        | some room => simp [h4, expectedOutputs, List.filterMap_cons, hc, hroom, writeOutput]

/-- One iteration never decreases the counter. -/
theorem dispatchBody_progress_le (cutoff : Double) (total : Nat) (file : InputFile)
    (st st1 : DispatchState) (h : dispatchBody cutoff total file st = some st1) :
    st.progress ≤ st1.progress := by
  by_cases ht : st.terminated = true
  · rw [dispatchBody_terminated cutoff total file st ht] at h
    cases h
    exact Nat.le_refl _
  · have htf : st.terminated = false := by simpa using ht
    cases hc : file.input with
    | openFailed =>
      rw [dispatchBody_openFailed cutoff total file st hc] at h
      cases h
      exact Nat.le_refl _
    | resizeThrows =>
      simp [dispatchBody, htf, hc] at h
      subst h
      exact Nat.le_refl _
    | read buffer =>
      rw [dispatchBody_read cutoff total file st buffer htf hc] at h
      cases h
      exact Nat.le_succ _

/-- A directory among the entries: the entry before it is processed, then
`buffer.resize` throws and the process terminates; the entry after it is not
processed. -/
theorem scenario_directory_terminates :
    Option.map DispatchState.terminated (dispatch cutoff50 withDirectory) = some true ∧
      Option.map DispatchState.written (dispatch cutoff50 withDirectory) =
        some [("a.pdb", bytes "END" ++ [LF])] ∧
      Option.map DispatchState.progress (dispatch cutoff50 withDirectory) = some 1 := by
  decide

/-- Output streams that fail: no file is written when the stream does not
open, a shortened file when it takes two bytes only; both files count as
processed and the loop runs to its end. -/
theorem scenario_bad_outputs :
    Option.map DispatchState.terminated (dispatch cutoff50 badOutputs) = some false ∧
      Option.map DispatchState.written (dispatch cutoff50 badOutputs) =
        some [("b.pdb", bytes "EN")] ∧
      Option.map DispatchState.progress (dispatch cutoff50 badOutputs) = some 2 ∧
      Option.map DispatchState.stderr (dispatch cutoff50 badOutputs) = some [] := by
  decide

/-- C11: the final value of the counter falls short of the number of files.
Of the two enumerated files `a.pdb` does not open; its iteration leaves the
loop body at `continue` (line 90) before `++progress` (line 138), so after the
loop the counter is 1 while 2 files were enumerated. -/
theorem C11_progress_misses_unopened :
    Option.map DispatchState.progress (dispatch cutoff50 twoFiles) = some 1 ∧
      twoFiles.length = 2 ∧ openCount twoFiles = 1 := by
  decide

/-- C13, as stated, fails. The one enumerated file does not open; the loop
runs to its end, and it has printed nothing, neither to `std::cerr` nor to
`std::cout`: the failure is not logged. -/
theorem C13_failure_not_logged :
    (oneMissing.filter (fun file => !file.opens)).length = 1 ∧
      Option.map DispatchState.terminated (dispatch cutoff50 oneMissing) = some false ∧
      Option.map DispatchState.stderr (dispatch cutoff50 oneMissing) = some [] ∧
      Option.map DispatchState.stdout (dispatch cutoff50 oneMissing) = some [] := by
  decide

/-- C13, amended. Let `buffer.resize` throw for no file of the list (every
file that opens is read into the buffer). Then the dispatch loop runs to its
end without terminating the process. The iteration on a file that does not
open returns without writing an output file and without printing anything.
Every file that is read is processed: its filter returns the retained lines,
the writes are exactly one for every file that is read and whose output stream
opens, named after it and holding the filtered bytes that the stream takes, in
the order of the list; the file holds all the filtered bytes when the stream
takes them all. Nothing is printed to `std::cerr`. -/
theorem C13_unopened_files_skipped (cutoff : Double) (pdb_files : List InputFile)
    (hread : ∀ file ∈ pdb_files, file.input ≠ ReadResult.resizeThrows) :
    ∃ st, dispatch cutoff pdb_files = some st ∧
      st.terminated = false ∧
      (∀ file ∈ pdb_files, file.input = ReadResult.openFailed →
        ∀ st0, ∃ st1, dispatchBody cutoff pdb_files.length file st0 = some st1 ∧
          st1.written = st0.written ∧ st1.stdout = st0.stdout ∧ st1.stderr = st0.stderr) ∧
      st.written = expectedOutputs cutoff pdb_files ∧
      (∀ file ∈ pdb_files, ∀ buffer, file.input = ReadResult.read buffer →
        filterFile buffer cutoff = some (emit (keptLines buffer cutoff)) ∧
        ∀ room, file.outputRoom = some room →
          (file.name, (emit (keptLines buffer cutoff)).take room) ∈ st.written ∧
          ((emit (keptLines buffer cutoff)).length ≤ room →
            (file.name, emit (keptLines buffer cutoff)) ∈ st.written)) ∧
      st.stderr = [] := by
  obtain ⟨st, h1, hterm, _, h3, h4⟩ := dispatchLoop_eq cutoff pdb_files.length pdb_files hread
    { progress := 0, written := [], stdout := [], stderr := [], terminated := false } rfl
  have hw : st.written = expectedOutputs cutoff pdb_files := by simpa using h3
  refine ⟨st, h1, hterm, ?_, hw, ?_, h4⟩
  · intro file _ hc st0
    exact ⟨st0, dispatchBody_openFailed cutoff pdb_files.length file st0 hc, rfl, rfl, rfl⟩
  · intro file hfile buffer hc
    refine ⟨filterFile_eq buffer cutoff, ?_⟩
    intro room hroom
    have hmem : (file.name, (emit (keptLines buffer cutoff)).take room) ∈ st.written := by
      rw [hw, expectedOutputs]
      exact List.mem_filterMap.2 ⟨file, hfile, by simp [hc, hroom]⟩
    refine ⟨hmem, ?_⟩
    intro hle
    rwa [List.take_of_length_le hle] at hmem

/-- C13, amended, at a concrete input: of the two files `a.pdb`, which does
not open, and `b.pdb`, which holds the line `END`, only `b.pdb` is written,
with the line `END`; the loop runs to its end and nothing is printed to
`std::cerr`. -/
theorem C13_unopened_files_skipped_witness :
    (∀ file ∈ twoFiles, file.input ≠ ReadResult.resizeThrows) ∧
      ∃ st, dispatch cutoff50 twoFiles = some st ∧ st.terminated = false ∧
        st.written = [("b.pdb", bytes "END" ++ [LF])] ∧ st.stderr = [] :=
  ⟨by decide,
    (C13_unopened_files_skipped cutoff50 twoFiles (by decide)).elim
      (fun st h => ⟨st, h.1, h.2.1, h.2.2.2.1.trans (by decide), h.2.2.2.2.2⟩)⟩

/-! ## `atof` stops at the end of a numeral -/

theorem readDigits_append (digit : Byte → Option Nat) (base : Nat) (c : Byte)
    (t : List Byte) (hd : digit c = none) :
    ∀ (a : List Byte) (acc cnt : Nat),
      readDigits digit base (a ++ c :: t) acc cnt =
        ((readDigits digit base a acc cnt).1, (readDigits digit base a acc cnt).2.1,
          (readDigits digit base a acc cnt).2.2 ++ c :: t) := by
  intro a
  induction a with
  | nil => intro acc cnt; simp [readDigits, hd]
  | cons x a ih =>
    intro acc cnt
    cases hx : digit x with
    | none => simp [readDigits, hx]
    | some d => simp [readDigits, hx, ih]

theorem readMantissa_append (digit : Byte → Option Nat) (base : Nat) (c : Byte)
    (t : List Byte) (hd : digit c = none) (hpoint : c ≠ 46) (a : List Byte) :
    readMantissa digit base (a ++ c :: t) =
      ((readMantissa digit base a).1, (readMantissa digit base a).2.1,
        (readMantissa digit base a).2.2.1, (readMantissa digit base a).2.2.2 ++ c :: t) := by
  unfold readMantissa
  rw [readDigits_append digit base c t hd]
  rcases h : readDigits digit base a 0 0 with ⟨ip, n1, r1⟩
  rcases r1 with _ | ⟨x, r⟩
  · simp [hpoint]
  · by_cases hx : x = 46
    · subst hx
      simp [readDigits_append digit base c t hd]
    · simp [hx]

theorem isStop_facts {c : Byte} (h : isStop c = true) :
    decDigit c = none ∧ hexDigit c = none ∧ lower c = c ∧ c ≠ 43 ∧ c ≠ 45 ∧ c ≠ 46 ∧
      c ≠ 101 ∧ c ≠ 112 ∧ c ≠ 105 ∧ c ≠ 110 ∧ c ≠ 120 ∧ c ≠ 97 ∧ c ≠ 102 ∧ c ≠ 48 := by
  have hc : c = 0 ∨ c = 10 := by simpa [isStop, LF] using h
  rcases hc with rfl | rfl <;> decide

theorem readExponent_append (marker : Byte) (c : Byte) (t : List Byte)
    (hd : decDigit c = none) (hm : lower c ≠ marker) (hplus : c ≠ 43) (hminus : c ≠ 45)
    (rest : List Byte) :
    readExponent marker (rest ++ c :: t) = readExponent marker rest := by
  rcases rest with _ | ⟨x, r⟩
  · simp [readExponent, hm]
  · by_cases hx : lower x = marker
    · rcases r with _ | ⟨y, r⟩
      · have h0 : (readDigits decDigit 10 (c :: t) 0 0).2.1 = 0 := by simp [readDigits, hd]
        have hsplit : (match c :: t with
            | 43 :: r => (false, r)
            | 45 :: r => (true, r)
            | r => (false, r)) = (false, c :: t) := by
          split
          · rename_i heq; exact absurd (List.cons.inj heq).1 hplus
          · rename_i heq; exact absurd (List.cons.inj heq).1 hminus
          · rfl
        simp only [readExponent, hx, if_true, List.nil_append, List.cons_append, hsplit]
        simp [readDigits, hd]
      · by_cases hy1 : y = 43
        · subst hy1
          simp [readExponent, hx, readDigits_append decDigit 10 c t hd]
        · by_cases hy2 : y = 45
          · subst hy2
            simp [readExponent, hx, readDigits_append decDigit 10 c t hd]
          · have hsplit : ∀ u : List Byte, (match y :: u with
                | 43 :: r => (false, r)
                | 45 :: r => (true, r)
                | r => (false, r)) = (false, y :: u) := by
              intro u
              split
              · rename_i heq; exact absurd (List.cons.inj heq).1 hy1
              · rename_i heq; exact absurd (List.cons.inj heq).1 hy2
              · rfl
            have happ := readDigits_append decDigit 10 c t hd (y :: r) 0 0
            simp only [List.cons_append] at happ
            simp only [readExponent, hx, if_true, List.cons_append, hsplit, happ]
    · simp [readExponent, hx]

theorem parseDecimal_append (neg : Bool) (c : Byte) (t : List Byte) (hc : isStop c = true)
    (a : List Byte) : parseDecimal neg (a ++ c :: t) = parseDecimal neg a := by
  obtain ⟨hd, _, hl, hplus, hminus, hpoint, he, _⟩ := isStop_facts hc
  unfold parseDecimal
  rw [readMantissa_append decDigit 10 c t hd hpoint]
  simp only []
  rw [readExponent_append 101 c t hd (by rw [hl]; exact he) hplus hminus]

theorem parseHex_append (neg : Bool) (c : Byte) (t : List Byte) (hc : isStop c = true)
    (a : List Byte) : parseHex neg (a ++ c :: t) = parseHex neg a := by
  obtain ⟨hd, hh, hl, hplus, hminus, hpoint, _, hp, _⟩ := isStop_facts hc
  unfold parseHex
  rw [readMantissa_append hexDigit 16 c t hh hpoint]
  simp only []
  rw [readExponent_append 112 c t hd (by rw [hl]; exact hp) hplus hminus]

theorem eq_of_take_three {l : List Byte} {x y z : Byte} (h : l.take 3 = [x, y, z]) :
    l = x :: y :: z :: l.drop 3 := by
  have := List.take_append_drop 3 l
  rw [h] at this
  exact this.symm

theorem eq_of_take_two {l : List Byte} {x y : Byte} (h : l.take 2 = [x, y]) :
    l = x :: y :: l.drop 2 := by
  have := List.take_append_drop 2 l
  rw [h] at this
  exact this.symm

/-- The choice of the form of the numeral, written with tests on the first
bytes. -/
theorem parseNumber_eq (neg : Bool) (s : List Byte) :
    parseNumber neg s =
      if (s.map lower).take 3 = [105, 110, 102] then
        (if neg then Double.ninf else Double.pinf)
      else if (s.map lower).take 3 = [110, 97, 110] then Double.nan
      else if (s.map lower).take 2 = [48, 120] then parseHex neg (s.drop 2)
      else parseDecimal neg s := by
  unfold parseNumber
  split
  · rename_i heq; simp [heq]
  · rename_i heq; simp [heq]
  · rename_i heq; simp [heq]
  · rename_i h1 h2 h3
    have n1 : ¬ (s.map lower).take 3 = [105, 110, 102] := fun e => h1 _ (eq_of_take_three e)
    have n2 : ¬ (s.map lower).take 3 = [110, 97, 110] := fun e => h2 _ (eq_of_take_three e)
    have n3 : ¬ (s.map lower).take 2 = [48, 120] := fun e => h3 _ (eq_of_take_two e)
    rw [if_neg n1, if_neg n2, if_neg n3]

theorem parseNumber_append (neg : Bool) (c : Byte) (t : List Byte) (hc : isStop c = true)
    (a : List Byte) : parseNumber neg (a ++ c :: t) = parseNumber neg a := by
  obtain ⟨_, _, hl, _, _, _, _, _, hi, hn, hx, ha, hf, h0⟩ := isStop_facts hc
  have e1 : ((a ++ c :: t).map lower).take 3 = [105, 110, 102] ↔
      (a.map lower).take 3 = [105, 110, 102] := by
    rcases a with _ | ⟨x, _ | ⟨y, _ | ⟨z, r⟩⟩⟩ <;> simp [hl, hi, hn, hf]
  have e2 : ((a ++ c :: t).map lower).take 3 = [110, 97, 110] ↔
      (a.map lower).take 3 = [110, 97, 110] := by
    rcases a with _ | ⟨x, _ | ⟨y, _ | ⟨z, r⟩⟩⟩ <;> simp [hl, hn, ha]
  have e3 : ((a ++ c :: t).map lower).take 2 = [48, 120] ↔
      (a.map lower).take 2 = [48, 120] := by
    rcases a with _ | ⟨x, _ | ⟨y, r⟩⟩ <;> simp [hl, h0, hx]
  rw [parseNumber_eq neg (a ++ c :: t), parseNumber_eq neg a]
  by_cases c1 : (a.map lower).take 3 = [105, 110, 102]
  · rw [if_pos c1, if_pos (e1.2 c1)]
  · rw [if_neg c1, if_neg (fun e => c1 (e1.1 e))]
    by_cases c2 : (a.map lower).take 3 = [110, 97, 110]
    · rw [if_pos c2, if_pos (e2.2 c2)]
    · rw [if_neg c2, if_neg (fun e => c2 (e2.1 e))]
      by_cases c3 : (a.map lower).take 2 = [48, 120]
      · rw [if_pos c3, if_pos (e3.2 c3)]
        rcases a with _ | ⟨x, _ | ⟨y, r⟩⟩
        · simp at c3
        · simp at c3
        · exact parseHex_append neg c t hc r
      · rw [if_neg c3, if_neg (fun e => c3 (e3.1 e))]
        exact parseDecimal_append neg c t hc a

theorem skipSpaces_append_of_ne_nil (a t : List Byte) (h : skipSpaces a ≠ []) :
    skipSpaces (a ++ t) = skipSpaces a ++ t := by
  induction a with
  | nil => exact absurd rfl h
  | cons x a ih =>
    by_cases hx : isSpace x = true
    · have h1 : skipSpaces a ≠ [] := by simpa [skipSpaces, hx] using h
      simp [skipSpaces, hx, ih h1]
    · simp [skipSpaces, hx]

theorem skipSpaces_append_stop (a : List Byte) (c : Byte) (t : List Byte)
    (hs : isSpace c = false) (h : skipSpaces a = []) :
    skipSpaces (a ++ c :: t) = c :: t := by
  induction a with
  | nil => simp [skipSpaces, hs]
  | cons x a ih =>
    by_cases hx : isSpace x = true
    · have h1 : skipSpaces a = [] := by simpa [skipSpaces, hx] using h
      simp [skipSpaces, hx, ih h1]
    · simp [skipSpaces, hx] at h

/-- The number that follows the white space does not depend on what follows a
NUL or LF byte. -/
theorem atof_tail_append (u : List Byte) (c : Byte) (t : List Byte) (hc : isStop c = true) :
    (match u ++ c :: t with
      | 43 :: r => parseNumber false r
      | 45 :: r => parseNumber true r
      | r => parseNumber false r) =
    (match u with
      | 43 :: r => parseNumber false r
      | 45 :: r => parseNumber true r
      | r => parseNumber false r) := by
  obtain ⟨_, _, _, hplus, hminus, _⟩ := isStop_facts hc
  rcases u with _ | ⟨x, r⟩
  · have h := parseNumber_append false c t hc []
    simp only [List.nil_append] at h ⊢
    split
    · rename_i heq; exact absurd (List.cons.inj heq).1 hplus
    · rename_i heq; exact absurd (List.cons.inj heq).1 hminus
    · rw [h]
  · by_cases h1 : x = 43
    · subst h1; exact parseNumber_append false c t hc r
    · by_cases h2 : x = 45
      · subst h2; exact parseNumber_append true c t hc r
      · have hl : ∀ w : List Byte, (match x :: w with
            | 43 :: r => parseNumber false r
            | 45 :: r => parseNumber true r
            | r => parseNumber false r) = parseNumber false (x :: w) := by
          intro w
          split
          · rename_i heq; exact absurd (List.cons.inj heq).1 h1
          · rename_i heq; exact absurd (List.cons.inj heq).1 h2
          · rfl
        rw [List.cons_append, hl, hl]
        exact parseNumber_append false c t hc (x :: r)

/-- What follows a NUL byte does not change the value of `atof`. -/
theorem atof_append_nul (a t : List Byte) : atof (a ++ 0 :: t) = atof a := by
  unfold atof
  by_cases h : skipSpaces a = []
  · rw [skipSpaces_append_stop a 0 t (by decide) h, h]
    exact atof_tail_append [] 0 t (by decide)
  · rw [skipSpaces_append_of_ne_nil a (0 :: t) h]
    exact atof_tail_append (skipSpaces a) 0 t (by decide)

/-- When the bytes before an LF are not all white space, what follows the LF
does not change the value of `atof`. -/
theorem atof_append_lf (a t : List Byte) (h : skipSpaces a ≠ []) :
    atof (a ++ LF :: t) = atof a := by
  unfold atof
  rw [skipSpaces_append_of_ne_nil a (LF :: t) h]
  exact atof_tail_append (skipSpaces a) LF t (by decide)

theorem atof_takeWhile_nul (s : List Byte) :
    atof (s.takeWhile (fun b => b != 0)) = atof s := by
  have hsplit := List.takeWhile_append_dropWhile (fun b : Byte => b != 0) s
  rcases hd : s.dropWhile (fun b => b != 0) with _ | ⟨x, t⟩
  · rw [hd, List.append_nil] at hsplit
    rw [hsplit]
  · have hx : x = 0 := by
      have hmem : (s.dropWhile (fun b => b != 0)).head? = some x := by rw [hd]; rfl
      have := List.head?_dropWhile_not (fun b : Byte => b != 0) s
      rw [hmem] at this
      simpa using this
    subst hx
    rw [hd] at hsplit
    conv_rhs => rw [← hsplit]
    rw [atof_append_nul]

theorem eq_lineOf_append (s : List Byte) :
    ∃ rest, s = lineOf s ++ rest ∧ (rest = [] ∨ ∃ t, rest = LF :: t) := by
  induction s with
  | nil => exact ⟨[], rfl, Or.inl rfl⟩
  | cons b bs ih =>
    by_cases hb : b = LF
    · subst hb
      exact ⟨LF :: bs, by simp [lineOf_cons_lf], Or.inr ⟨bs, rfl⟩⟩
    · obtain ⟨rest, h1, h2⟩ := ih
      refine ⟨rest, ?_, h2⟩
      rw [lineOf_cons_ne hb, List.cons_append, ← h1]

/-- When the bytes of a line from offset 60 on are not all white space, the
extracted B-factor is `atof` of these bytes: it does not depend on the lines
that follow. -/
theorem bfactor_eq_atof_line {seg : List Byte × List Byte} (hline : seg.1 = lineOf seg.2)
    (hlen : 60 ≤ seg.1.length) (hfield : skipSpaces (seg.1.drop 60) ≠ []) :
    bfactor seg = atof (seg.1.drop 60) := by
  obtain ⟨rest, h1, h2⟩ := eq_lineOf_append seg.2
  rw [← hline] at h1
  have hdrop : seg.2.drop 60 = seg.1.drop 60 ++ rest := by
    conv_lhs => rw [h1]
    exact List.drop_append_of_le_length hlen
  rw [bfactor, fast_bfactor, cstr, Nat.zero_add, atof_takeWhile_nul, hdrop]
  rcases h2 with h2 | ⟨t, h2⟩
  · rw [h2, List.append_nil]
  · rw [h2, atof_append_lf _ _ hfield]

theorem readExponent_of_plain {rest : List Byte}
    (h : (match rest with
      | c :: _ => lower c != 101
      | [] => true) = true) : readExponent 101 rest = 0 := by
  rcases rest with _ | ⟨c, r⟩
  · rfl
  · have hc : lower c ≠ 101 := by simpa using h
    simp [readExponent, hc]

theorem parseNumber_of_plain (neg : Bool) (s : List Byte) (h : plainAfterSign s = true) :
    parseNumber neg s = decimalAsStated neg s := by
  unfold plainAfterSign at h
  unfold parseNumber
  split at h
  · exact absurd h (by simp)
  · exact absurd h (by simp)
  · exact absurd h (by simp)
  · have hexp := readExponent_of_plain h
    unfold parseDecimal decimalAsStated
    rcases hm : readMantissa decDigit 10 s with ⟨m, n, frac, rest⟩
    rw [hm] at hexp
    simp only [] at hexp ⊢
    rw [hexp, Int.zero_sub]

theorem atof_of_plain (s : List Byte) (h : plainNumeral s = true) :
    atof s = parseAsStated s := by
  unfold plainNumeral at h
  unfold atof parseAsStated
  split at h
  · exact parseNumber_of_plain false _ h
  · exact parseNumber_of_plain true _ h
  · exact parseNumber_of_plain false _ h

theorem readDigits_of_no_digit (digit : Byte → Option Nat) (base : Nat) (s : List Byte)
    (acc cnt : Nat) (h : ∀ b ∈ s, digit b = none) :
    readDigits digit base s acc cnt = (acc, cnt, s) := by
  cases s with
  | nil => rfl
  | cons x r => simp [readDigits, h x (by simp)]

theorem decimalAsStated_of_no_digit (neg : Bool) (s : List Byte)
    (h : ∀ b ∈ s, decDigit b = none) : decimalAsStated neg s = Double.fin 0 0 := by
  unfold decimalAsStated readMantissa
  rw [readDigits_of_no_digit decDigit 10 s 0 0 h]
  rcases s with _ | ⟨x, r⟩
  · simp
  · by_cases hx : x = 46
    · subst hx
      have hr : ∀ b ∈ r, decDigit b = none := fun b hb => h b (by simp [hb])
      simp [readDigits_of_no_digit decDigit 10 r 0 0 hr]
    · simp [hx]

theorem skipSpaces_subset (s : List Byte) : ∀ b ∈ skipSpaces s, b ∈ s := by
  induction s with
  | nil => intro b hb; simp [skipSpaces] at hb
  | cons x r ih =>
    intro b hb
    by_cases hx : isSpace x = true
    · simp only [skipSpaces, hx, if_true] at hb
      exact List.mem_cons_of_mem _ (ih b hb)
    · simpa [skipSpaces, hx] using hb

theorem parseAsStated_of_no_digit (s : List Byte) (h : ∀ b ∈ s, decDigit b = none) :
    parseAsStated s = Double.fin 0 0 := by
  have hsub := skipSpaces_subset s
  unfold parseAsStated
  split
  · rename_i r heq
    exact decimalAsStated_of_no_digit false r
      (fun b hb => h b (hsub b (by rw [heq]; simp [hb])))
  · rename_i r heq
    exact decimalAsStated_of_no_digit true r
      (fun b hb => h b (hsub b (by rw [heq]; simp [hb])))
  · exact decimalAsStated_of_no_digit false _ (fun b hb => h b (hsub b hb))

/-- C12, as stated, fails. The first record holds `nan` in its B-factor field:
no digits are found, yet the extracted value is NaN, not 0.0. The second record
holds `1e2`: the stated grammar reads the numeral `1`, the extracted value is
100, and with the cutoff 50 the record is kept. -/
theorem C12_atof_reads_more_forms :
    filterable (atomRecord "   nan           N", atomRecord "   nan           N" ++ [LF]) = true ∧
      bfactor (atomRecord "   nan           N", atomRecord "   nan           N" ++ [LF]) =
        Double.nan ∧
      bfactorAsStated (atomRecord "   nan           N",
        atomRecord "   nan           N" ++ [LF]) = Double.fin 0 0 ∧
      filterable (atomRecord "   1e2           N", atomRecord "   1e2           N" ++ [LF]) = true ∧
      bfactor (atomRecord "   1e2           N", atomRecord "   1e2           N" ++ [LF]) =
        atof (bytes "100") ∧
      bfactorAsStated (atomRecord "   1e2           N",
        atomRecord "   1e2           N" ++ [LF]) = atof (bytes "1") ∧
      Double.lt (atof (bytes "1")) (atof (bytes "100")) = true ∧
      filterFile (atomRecord "   1e2           N" ++ [LF]) cutoff50 =
        some (atomRecord "   1e2           N" ++ [LF]) := by
  decide

/-- C12, amended. For every line classified as an atomic record whose bytes
from offset 60 on are not all white space, the extracted B-factor is the value
of `atof` on these bytes of the line. It equals the value of the decimal
numeral of the stated grammar whenever these bytes are in the plain form: after
the white space and the sign they do not start with `inf`, `nan` or `0x`, and
the digits are not followed by `e` or `E`. In the plain form it is 0.0 when
the bytes hold no digit. -/
theorem C12_bfactor_of_field (buffer : List Byte) (seg : List Byte × List Byte)
    (hseg : seg ∈ segments buffer) (hrec : filterable seg = true)
    (hfield : skipSpaces (seg.1.drop 60) ≠ []) :
    bfactor seg = atof (seg.1.drop 60) ∧
      (plainNumeral (seg.1.drop 60) = true → bfactor seg = bfactorAsStated seg) ∧
      (plainNumeral (seg.1.drop 60) = true → (∀ b ∈ seg.1.drop 60, decDigit b = none) →
        bfactor seg = Double.fin 0 0) := by
  have hline := (segments_mem buffer seg hseg).1
  have hlen : 66 < seg.1.length := by
    have := (isAtomRecord_iff seg.2 0 seg.1.length).1 hrec
    exact this.1
  have hatof := bfactor_eq_atof_line hline (by omega) hfield
  refine ⟨hatof, ?_, ?_⟩
  · intro hplain
    rw [hatof, bfactorAsStated, atof_of_plain _ hplain]
  · intro hplain hnone
    rw [hatof, atof_of_plain _ hplain, parseAsStated_of_no_digit _ hnone]

/-- C12, amended, at a concrete input: the record with the B-factor field
` 75.00`, followed by a second record. Its extracted value is the value of the
numeral `75.00` of the stated grammar, which is that of `atof` on `75`. -/
theorem C12_bfactor_of_field_witness :
    bfactor (atomRecord " 75.00           N",
        atomRecord " 75.00           N" ++ [LF] ++ atomRecord " 20.00           N") =
      bfactorAsStated (atomRecord " 75.00           N",
        atomRecord " 75.00           N" ++ [LF] ++ atomRecord " 20.00           N") ∧
      bfactorAsStated (atomRecord " 75.00           N",
        atomRecord " 75.00           N" ++ [LF] ++ atomRecord " 20.00           N") =
        atof (bytes "75") :=
  ⟨(C12_bfactor_of_field
      (atomRecord " 75.00           N" ++ [LF] ++ atomRecord " 20.00           N")
      (atomRecord " 75.00           N",
        atomRecord " 75.00           N" ++ [LF] ++ atomRecord " 20.00           N")
      (by decide) (by decide) (by decide)).2.1 (by decide),
    by decide⟩

end FilterPlddt
